import Mathlib

/-!
Verification of the Antigravity2api gateway core against its specification.

The definitions below are a shallow embedding, translated from the
JavaScript sources of the repository:

* `src/src/utils/utils.js` — thought-signature cache, OpenAI → Antigravity
  message translation, JSON-schema cleaning, request-body generation;
* `src/src/auth/quota_manager.js` — API-key gate, OpenAI stream re-emission,
  error handling in the chat-completion handler, TOML account import.

JavaScript strings are modeled by `String`, JSON values by `JVal` (object
fields as an insertion-ordered association list, matching JS object
enumeration for the non-integer-like keys the schemas use), absent or
`undefined` values by `Option`, and JS truthiness by explicit `≠ ""` and
`isSome` tests at each use site, mirroring each source condition.  The
module-global mutable signature maps are threaded as explicit arguments.
-/

namespace AG

/-! ## JavaScript string helpers -/

/-- Whitespace as recognized by JavaScript `String.prototype.trim`
(WhiteSpace and LineTerminator code points). -/
def isJsSpace (c : Char) : Bool :=
  c.toNat = 0x9 || c.toNat = 0xa || c.toNat = 0xb || c.toNat = 0xc ||
  c.toNat = 0xd || c.toNat = 0x20 || c.toNat = 0xa0 || c.toNat = 0x1680 ||
  (0x2000 ≤ c.toNat && c.toNat ≤ 0x200a) ||
  c.toNat = 0x2028 || c.toNat = 0x2029 || c.toNat = 0x202f ||
  c.toNat = 0x205f || c.toNat = 0x3000 || c.toNat = 0xfeff

/-- JavaScript `s.trim()`. -/
def jsTrim (s : String) : String :=
  String.mk (((s.toList.dropWhile isJsSpace).reverse.dropWhile isJsSpace).reverse)

/-- Split a character list at the first occurrence of `pat`, returning the
part before the occurrence and the part after it. -/
def splitOnce (pat : List Char) : List Char → Option (List Char × List Char)
  | [] => if pat = [] then some ([], []) else none
  | c :: cs =>
    if pat.isPrefixOf (c :: cs) then some ([], (c :: cs).drop pat.length)
    else (splitOnce pat cs).map (fun p => (c :: p.1, p.2))

/-- JavaScript `s.includes(pat)`: substring containment. -/
def strContains (s pat : String) : Bool :=
  (splitOnce pat.toList s.toList).isSome

/-- The recursion of `stripTagBlocks`, on explicit fuel so that concrete
inputs evaluate by kernel reduction.  Each removed block consumes at least
one character, so `s.length` is always enough fuel. -/
def stripTagBlocksFuel (openT closeT : List Char) : Nat → List Char → List Char
  | 0, s => s
  | fuel + 1, s =>
    match splitOnce openT s with
    | none => s
    | some (before, rest) =>
      match splitOnce closeT rest with
      | none => s
      | some (_, after) => before ++ stripTagBlocksFuel openT closeT fuel after

/-- JavaScript global regex replace of `open[\s\S]*?close` by the empty
string, for a pair of nonempty literal tags: repeatedly remove the block
from the leftmost opening tag to the first closing tag after it. -/
def stripTagBlocks (openT closeT : List Char) (s : List Char) : List Char :=
  stripTagBlocksFuel openT closeT s.length s

/-- One attempted match of the markdown-image regex `!\[[^\]]*]\([^)]+\)` at
the head of the list; on success returns the remainder after the match. -/
def matchMdImage : List Char → Option (List Char)
  | '!' :: '[' :: rest =>
    match rest.drop (rest.takeWhile (fun c => c ≠ ']')).length with
    | ']' :: '(' :: r2 =>
      if (r2.takeWhile (fun c => c ≠ ')')).isEmpty then none
      else
        match r2.drop (r2.takeWhile (fun c => c ≠ ')')).length with
        | ')' :: r3 => some r3
        | _ => none
    | _ => none
  | _ => none

/-- The recursion of `stripMdImages`, on explicit fuel so that concrete
inputs evaluate by kernel reduction; each step consumes at least one
character, so `s.length` is always enough fuel. -/
def stripMdImagesFuel : Nat → List Char → List Char
  | 0, s => s
  | _ + 1, [] => []
  | fuel + 1, c :: cs =>
    match matchMdImage (c :: cs) with
    | some rest => stripMdImagesFuel fuel rest
    | none => c :: stripMdImagesFuel fuel cs

/-- JavaScript `s.replace(/!\[[^\]]*]\([^)]+\)/g, "")`. -/
def stripMdImages (s : List Char) : List Char :=
  stripMdImagesFuel s.length s

/-- JavaScript `s.replace(/\r\n/g, "\n")`. -/
def replaceCrLf : List Char → List Char
  | [] => []
  | '\r' :: '\n' :: cs => '\n' :: replaceCrLf cs
  | c :: cs => c :: replaceCrLf cs

/-- `normalizeTextForSignature` from `utils.js`: strip `<think>` blocks and
markdown image references, normalize CRLF, trim. -/
def normalizeTextForSignature (s : String) : String :=
  jsTrim (String.mk (replaceCrLf (stripMdImages
    (stripTagBlocks "<think>".toList "</think>".toList s.toList))))

/-! ## JSON values

JSON values as produced by `JSON.parse`, with object fields kept as an
insertion-ordered association list (matching JS enumeration order for
non-integer-like keys; the schema keys handled by the cleaner are all
non-integer-like).  Numbers are modeled by `Int`: the cleaner never computes
with numbers, it only moves them around or compares against `false`. -/

inductive JVal where
  | null
  | bool (b : Bool)
  | num (n : Int)
  | str (s : String)
  | arr (items : List JVal)
  | obj (fields : List (String × JVal))

/-- First-match field lookup, mirroring JS property access on objects whose
keys are unique. -/
def lookupField : List (String × JVal) → String → Option JVal
  | [], _ => none
  | (k, v) :: rest, key => if k = key then some v else lookupField rest key

/-- JavaScript `field in obj` for own fields. -/
def hasField (fs : List (String × JVal)) (k : String) : Bool :=
  (lookupField fs k).isSome

/-- JavaScript truthiness of a JSON value. -/
def jsFalsy : JVal → Bool
  | .null => true
  | .bool b => !b
  | .num n => n = 0
  | .str s => s = ""
  | _ => false

mutual

/-- JavaScript `String(v)` (as used by template literals) for the values the
cleaner can meet; arrays join their elements with a comma, objects print as
the usual placeholder. -/
def jsToString : JVal → String
  | .null => "null"
  | .bool true => "true"
  | .bool false => "false"
  | .num n => toString n
  | .str s => s
  | .arr xs => String.intercalate "," (jsToStringElems xs)
  | .obj _ => "[object Object]"

/-- Array elements under `Array.prototype.join`: `null` (and `undefined`)
become the empty string. -/
def jsToStringElems : List JVal → List String
  | [] => []
  | .null :: xs => "" :: jsToStringElems xs
  | v :: xs => jsToString v :: jsToStringElems xs

end

/-! ## cleanJsonSchema (`utils.js` lines 293–383) -/

/-- The validation fields the cleaner extracts; in the source this is an
object mapping each field name to itself, so the surfaced entry for a field
`f` is the string `f ++ ": " ++ f`. -/
def validationKeys : List String :=
  ["minLength", "maxLength", "minimum", "maximum", "minItems", "maxItems",
   "minProperties", "maxProperties", "pattern", "format", "multipleOf"]

/-- The fields the cleaner removes entirely (`fieldsToRemove` in the source,
in `Set` insertion order). -/
def fieldsToRemove : List String :=
  ["$schema", "additionalProperties", "uniqueItems",
   "exclusiveMinimum", "exclusiveMaximum"]

/-- `collectValidations` from the source: the surfaced `"field: value"`
entries for the validation fields present at this level, followed by the
literal `"no additional properties"` when `additionalProperties: false` is
present at this level. -/
def collectValidations (fs : List (String × JVal)) : List String :=
  (validationKeys.filterMap (fun f =>
    if hasField fs f then some (f ++ ": " ++ f) else none)) ++
  (match lookupField fs "additionalProperties" with
   | some (.bool false) => ["no additional properties"]
   | _ => [])

/-- The value written into a `description` key that receives the surfaced
validations: the template literal `` `${value || ''} (${validations.join(', ')})`.trim() ``. -/
def descAppend (v : JVal) (validations : List String) : String :=
  jsTrim ((if jsFalsy v then "" else jsToString v) ++ " (" ++
    String.intercalate ", " validations ++ ")")

/-- Removal of an empty `required` array after a level has been cleaned
(`if (cleaned.required && Array.isArray(cleaned.required)) … delete`). -/
def pruneEmptyRequired (fs : List (String × JVal)) : List (String × JVal) :=
  match lookupField fs "required" with
  | some (.arr []) => fs.filter (fun p => p.1 ≠ "required")
  | _ => fs

mutual

/-- `cleanObject` from the source (`top` is `path === ''`): arrays map their
object-like items in place, objects collect and drop validation fields,
drop the `fieldsToRemove`, append the surfaced validations to a top-level
`description`, recurse into the remaining values and prune an empty
`required`; everything else is returned unchanged (this also covers the JS
guard that returns `null` and non-objects as they are). -/
def cleanValue (top : Bool) : JVal → JVal
  | .arr xs => .arr (cleanItems top xs)
  | .obj fs => .obj (pruneEmptyRequired (cleanFields top (collectValidations fs) fs))
  | v => v

/-- The array branch of `cleanObject`: items of object type (including
nested arrays, which keep the current `path`) are cleaned, others kept. -/
def cleanItems (top : Bool) : List JVal → List JVal
  | [] => []
  | x :: xs =>
    (match x with
     | .null => cleanValue top .null
     | .arr ys => cleanValue top (.arr ys)
     | .obj gs => cleanValue top (.obj gs)
     | v => v) :: cleanItems top xs

/-- The `Object.entries` loop of `cleanObject`: skip removed and validation
fields, rewrite a top-level `description` when validations were collected,
clean object-typed values with a non-empty path, keep the rest. -/
def cleanFields (top : Bool) (validations : List String) :
    List (String × JVal) → List (String × JVal)
  | [] => []
  | (k, v) :: rest =>
    if k ∈ fieldsToRemove then cleanFields top validations rest
    else if k ∈ validationKeys then cleanFields top validations rest
    else if k = "description" ∧ validations ≠ [] ∧ top = true then
      (k, .str (descAppend v validations)) :: cleanFields top validations rest
    else
      (k,
        match v with
        | .null => cleanValue false .null
        | .arr ys => cleanValue false (.arr ys)
        | .obj gs => cleanValue false (.obj gs)
        | w => w) :: cleanFields top validations rest

end

/-- `cleanJsonSchema` from the source: the guard returns falsy and
non-object values unchanged, otherwise the recursive clean starts with the
empty path. -/
def cleanJsonSchema : JVal → JVal
  | .arr xs => cleanValue true (.arr xs)
  | .obj fs => cleanValue true (.obj fs)
  | v => v

/-! ## Thought-signature maps (`utils.js` lines 6–59)

The two module-global `Map`s are threaded as explicit lookup functions;
`m k = some v` models `map.has(k)` and `map.get(k)`.  Entries are only ever
written by `registerThoughtSignature` and `registerTextThoughtSignature`,
which both refuse falsy signatures, so well-formed map states carry only
non-empty signatures. -/

structure SigPayload where
  signature : String
  text : String
deriving DecidableEq

abbrev TextSigMap : Type := String → Option SigPayload

abbrev ToolSigMap : Type := String → Option String

/-- A map state reachable through `registerTextThoughtSignature`, which
drops falsy signatures before storing. -/
def textSigMapWF (m : TextSigMap) : Prop :=
  ∀ k p, m k = some p → p.signature ≠ ""

/-- `getThoughtSignature` from the source. -/
def getThoughtSignature (m : ToolSigMap) (id : String) : Option String :=
  if id = "" then none else m id

/-- `getTextThoughtSignature` from the source: exact key, then trimmed key,
then normalized key. -/
def getTextThoughtSignature (m : TextSigMap) (text : String) : Option SigPayload :=
  if jsTrim text = "" then none
  else if (m text).isSome then m text
  else if (m (jsTrim text)).isSome then m (jsTrim text)
  else if normalizeTextForSignature (jsTrim text) = "" then none
  else m (normalizeTextForSignature (jsTrim text))

/-! ## OpenAI-side message model -/

inductive OItem where
  | text (s : String)
  | image_url (url : String)
  | other

inductive OContent where
  | str (s : String)
  | items (its : List OItem)

/-- An OpenAI tool call; `arguments` is modeled as the parsed JSON object
(the source additionally accepts a JSON string and runs `JSON.parse` on it;
that parsing step is outside the modeled input space). -/
structure OToolCall where
  id : String
  typ : String
  name : String
  arguments : JVal

inductive ORole where
  | user | system | assistant | tool
deriving DecidableEq

structure OMessage where
  role : ORole
  content : Option OContent := none
  tool_calls : Option (List OToolCall) := none
  tool_call_id : String := ""

/-! ## Antigravity-side message model -/

structure FunctionCall where
  id : String
  name : String
  args : JVal

structure FunctionResponse where
  id : String
  name : String
  output : JVal

structure InlineData where
  mimeType : String
  data : String

structure Part where
  text : Option String := none
  thoughtSignature : Option String := none
  functionCall : Option FunctionCall := none
  functionResponse : Option FunctionResponse := none
  inlineData : Option InlineData := none

inductive GRole where
  | user | model
deriving DecidableEq

structure GMessage where
  role : GRole
  parts : List Part

/-- A JS `if (x) part.field = x` assignment for an optional string: empty
strings are falsy and are not written. -/
def jsOptStr : Option String → Option String
  | some s => if s = "" then none else some s
  | none => none

/-! ## Multimodal extraction (`extractImagesFromContent`) -/

def isWordChar (c : Char) : Bool := c.isAlphanum || c = '_'

def isLineTerm (c : Char) : Bool :=
  c = '\n' || c = '\r' || c.toNat = 0x2028 || c.toNat = 0x2029

/-- The data-URI regex `^data:image\/(\w+);base64,(.+)$` of
`extractImagesFromContent`; on success returns the captured format and
base64 payload. -/
def matchDataImage (url : String) : Option (String × String) :=
  if "data:image/".toList.isPrefixOf url.toList then
    let rest := url.toList.drop 11
    let fmt := rest.takeWhile isWordChar
    if fmt = [] then none
    else
      let r2 := rest.drop fmt.length
      if ";base64,".toList.isPrefixOf r2 then
        let dat := r2.drop 8
        if dat = [] then none
        else if dat.any isLineTerm then none
        else some (String.mk fmt, String.mk dat)
      else none
  else none

structure Extracted where
  text : String
  images : List Part

/-- `extractImagesFromContent` from the source. -/
def extractImagesFromContent : Option OContent → Extracted
  | some (.str s) => { text := s, images := [] }
  | some (.items its) =>
    its.foldl (fun acc it =>
      match it with
      | .text s => { acc with text := acc.text ++ s }
      | .image_url url =>
        match matchDataImage url with
        | some fd =>
          { acc with images := acc.images ++
              [{ inlineData := some { mimeType := "image/" ++ fd.1, data := fd.2 } }] }
        | none => acc
      | .other => acc) { text := "", images := [] }
  | none => { text := "", images := [] }

/-- `handleUserMessage` from the source. -/
def handleUserMessage (extracted : Extracted) (out : List GMessage) : List GMessage :=
  out ++ [{ role := .user, parts := { text := some extracted.text } :: extracted.images }]

/-! ## Assistant messages (`handleAssistantMessage`) -/

/-- The assistant `content` flattened to text: arrays keep their `text`
items concatenated, strings are taken as they are, anything else is empty. -/
def assistantContentText : Option OContent → String
  | some (.str s) => s
  | some (.items its) =>
    String.join (its.filterMap (fun it =>
      match it with
      | .text s => some s
      | _ => none))
  | none => ""

/-- The `functionCall` parts built from `message.tool_calls`, each carrying
the cached thought signature for its tool-call id when one is truthy. -/
def antigravityToolParts (tm : ToolSigMap) (tcs : List OToolCall) : List Part :=
  tcs.map (fun tc =>
    { functionCall := some { id := tc.id, name := tc.name, args := tc.arguments },
      thoughtSignature := jsOptStr (getThoughtSignature tm tc.id) })

/-- `handleAssistantMessage` from the source. -/
def handleAssistantMessage (tm : ToolSigMap) (xm : TextSigMap) (msg : OMessage)
    (out : List GMessage) (modelName : String) : List GMessage :=
  let hasToolCalls :=
    match msg.tool_calls with
    | some l => !l.isEmpty
    | none => false
  let allowSig := strContains modelName "gemini-3"
  let contentText := assistantContentText msg.content
  let hasContent := decide (jsTrim contentText ≠ "")
  let tools :=
    if hasToolCalls then
      antigravityToolParts tm (msg.tool_calls.getD [])
    else []
  let mergeable :=
    match out.getLast? with
    | some last => decide (last.role = GRole.model) && hasToolCalls && !hasContent
    | none => false
  if mergeable then
    match out.getLast? with
    | some last => out.dropLast ++ [{ last with parts := last.parts ++ tools }]
    | none => out
  else
    let textParts :=
      if hasContent then
        let p := if allowSig then getTextThoughtSignature xm contentText else none
        if allowSig && p.isNone then []
        else [({ text := some ((p.map SigPayload.text).getD contentText),
                 thoughtSignature := jsOptStr (p.map SigPayload.signature) } : Part)]
      else []
    out ++ [{ role := .model, parts := textParts ++ tools }]

/-! ## Tool messages (`handleToolCall`) -/

/-- Scan of one model turn for a `functionCall` with the given id; its name
on the first hit, the empty string otherwise. -/
def scanPartsForName : List Part → String → String
  | [], _ => ""
  | p :: rest, callId =>
    match p.functionCall with
    | some fc => if fc.id = callId then fc.name else scanPartsForName rest callId
    | none => scanPartsForName rest callId

/-- The backwards scan over prior turns in `handleToolCall` (the argument is
the already-reversed message list): the first `model` turn, from the end,
whose scan yields a non-empty name. -/
def findFunctionNameRev : List GMessage → String → String
  | [], _ => ""
  | m :: rest, callId =>
    if m.role = .model then
      let n := scanPartsForName m.parts callId
      if n ≠ "" then n else findFunctionNameRev rest callId
    else findFunctionNameRev rest callId

def jsonEscape (s : String) : String :=
  String.join (s.toList.map (fun c =>
    if c = '"' then "\\\""
    else if c = '\\' then "\\\\"
    else if c = '\n' then "\\n"
    else if c = '\r' then "\\r"
    else if c = '\t' then "\\t"
    else if c.toNat < 0x20 then "\\u" ++ (Nat.toDigits 16 c.toNat).asString
    else String.mk [c]))

mutual

/-- `JSON.stringify` for modeled JSON values. -/
def jsonStringify : JVal → String
  | .null => "null"
  | .bool true => "true"
  | .bool false => "false"
  | .num n => toString n
  | .str s => "\"" ++ jsonEscape s ++ "\""
  | .arr xs => "[" ++ String.intercalate "," (jsonStringifyList xs) ++ "]"
  | .obj fs => "\x7b" ++ String.intercalate "," (jsonStringifyFields fs) ++ "\x7d"

def jsonStringifyList : List JVal → List String
  | [] => []
  | x :: xs => jsonStringify x :: jsonStringifyList xs

def jsonStringifyFields : List (String × JVal) → List String
  | [] => []
  | (k, v) :: fs =>
    ("\"" ++ jsonEscape k ++ "\":" ++ jsonStringify v) :: jsonStringifyFields fs

end

/-- The JSON shape of a modeled content item, for the stringify fallback of
`handleToolCall`. -/
def itemToJVal : OItem → JVal
  | .text s => .obj [("type", .str "text"), ("text", .str s)]
  | .image_url url => .obj [("type", .str "image_url"), ("image_url", .obj [("url", .str url)])]
  | .other => .obj []

/-- The `output` extraction of `handleToolCall`: strings pass through;
arrays are `typeof object`, have no `.text`, and fall back to
`JSON.stringify`; absence stays absent (modeled as `null`). -/
def toolOutput : Option OContent → JVal
  | some (.str s) => .str s
  | some (.items its) => .str (jsonStringify (.arr (its.map itemToJVal)))
  | none => .null

/-- `handleToolCall` from the source. -/
def handleToolCall (msg : OMessage) (out : List GMessage) : List GMessage :=
  let fname := findFunctionNameRev out.reverse msg.tool_call_id
  let fr : Part :=
    { functionResponse := some
        { id := msg.tool_call_id, name := fname, output := toolOutput msg.content } }
  let mergeable :=
    match out.getLast? with
    | some last =>
      decide (last.role = GRole.user) && last.parts.any (fun p => p.functionResponse.isSome)
    | none => false
  if mergeable then
    match out.getLast? with
    | some last => out.dropLast ++ [{ last with parts := last.parts ++ [fr] }]
    | none => out
  else
    out ++ [{ role := .user, parts := [fr] }]

/-- `openaiMessageToAntigravity` from the source. -/
def openaiMessageToAntigravity (tm : ToolSigMap) (xm : TextSigMap)
    (openaiMessages : List OMessage) (modelName : String) : List GMessage :=
  openaiMessages.foldl (fun out m =>
    match m.role with
    | .user => handleUserMessage (extractImagesFromContent m.content) out
    | .system => handleUserMessage (extractImagesFromContent m.content) out
    | .assistant => handleAssistantMessage tm xm m out modelName
    | .tool => handleToolCall m out) []

/-! ## Generation config and request body (`utils.js` lines 247–450) -/

structure ThinkingConfig where
  includeThoughts : Bool
  thinkingBudget : Nat
deriving DecidableEq

structure GenerationConfig where
  topP : Option JVal
  topK : JVal
  temperature : JVal
  candidateCount : Nat
  maxOutputTokens : JVal
  stopSequences : List String
  thinkingConfig : ThinkingConfig

/-- The configured sampling defaults (`config.defaults`), opaque JSON
values passed through unchanged. -/
structure Defaults where
  top_p : JVal
  top_k : JVal
  temperature : JVal
  max_tokens : JVal

structure Params where
  top_p : Option JVal := none
  top_k : Option JVal := none
  temperature : Option JVal := none
  max_tokens : Option JVal := none

/-- `generateGenerationConfig` from the source. -/
def generateGenerationConfig (dflt : Defaults) (parameters : Params)
    (enableThinking : Bool) (actualModelName : String) : GenerationConfig :=
  let base : GenerationConfig :=
    { topP := some (parameters.top_p.getD dflt.top_p)
      topK := parameters.top_k.getD dflt.top_k
      temperature := parameters.temperature.getD dflt.temperature
      candidateCount := 1
      maxOutputTokens := parameters.max_tokens.getD dflt.max_tokens
      stopSequences :=
        ["<|user|>", "<|bot|>", "<|context_request|>", "<|endoftext|>", "<|end_of_turn|>"]
      thinkingConfig :=
        { includeThoughts := enableThinking
          thinkingBudget := if enableThinking then 1024 else 0 } }
  if enableThinking && strContains actualModelName "claude" then
    { base with topP := none }
  else base

structure OTool where
  name : String
  description : String
  parameters : Option JVal := none

structure FunctionDeclaration where
  name : String
  description : String
  parameters : JVal

structure ToolWrapper where
  functionDeclarations : List FunctionDeclaration

/-- `convertOpenAIToolsToAntigravity` from the source. -/
def convertOpenAIToolsToAntigravity (openaiTools : Option (List OTool)) : List ToolWrapper :=
  match openaiTools with
  | none => []
  | some l =>
    l.map (fun t =>
      { functionDeclarations :=
          [{ name := t.name, description := t.description,
             parameters := cleanJsonSchema (t.parameters.getD (.obj [])) }] })

structure TokenInfo where
  projectId : String
  sessionId : String

structure SystemInstruction where
  role : String
  parts : List Part

structure UpstreamRequest where
  contents : List GMessage
  systemInstruction : SystemInstruction
  tools : List ToolWrapper
  functionCallingMode : String
  generationConfig : GenerationConfig
  sessionId : String

structure RequestBody where
  project : String
  requestId : String
  request : UpstreamRequest
  model : String
  userAgent : String

/-- The `delete part.thoughtSignature` sweep applied to every part when the
model name contains `claude`. -/
def stripPartSignatures (contents : List GMessage) : List GMessage :=
  contents.map (fun m =>
    { m with parts := m.parts.map (fun p => { p with thoughtSignature := none }) })

/-- `generateRequestBody` from the source.  `systemText` is
`config.systemInstruction` and `rid` the generated request id; the two
signature maps are the module globals. -/
def generateRequestBody (dflt : Defaults) (systemText : String) (rid : String)
    (tm : ToolSigMap) (xm : TextSigMap)
    (openaiMessages : List OMessage) (modelName : String) (parameters : Params)
    (openaiTools : Option (List OTool)) (token : TokenInfo) : RequestBody :=
  let actualModelName := modelName
  let hasAssistantToolCalls :=
    openaiMessages.any (fun m =>
      decide (m.role = .assistant) &&
      (match m.tool_calls with
       | some l => !l.isEmpty
       | none => false))
  let baseEnableThinking :=
    modelName.endsWith "-thinking" ||
    modelName = "gemini-2.5-pro" ||
    modelName.startsWith "gemini-3-pro-" ||
    modelName = "rev19-uic3-1p" ||
    modelName = "gpt-oss-120b-medium"
  let enableThinking :=
    baseEnableThinking &&
    !(strContains actualModelName "claude" && hasAssistantToolCalls)
  let contents := openaiMessageToAntigravity tm xm openaiMessages actualModelName
  let contents :=
    if strContains actualModelName "claude" then stripPartSignatures contents
    else contents
  { project := token.projectId
    requestId := rid
    request :=
      { contents := contents
        systemInstruction := { role := "user", parts := [{ text := some systemText }] }
        tools := convertOpenAIToolsToAntigravity openaiTools
        functionCallingMode := "VALIDATED"
        generationConfig :=
          generateGenerationConfig dflt parameters enableThinking actualModelName
        sessionId := token.sessionId }
    model := actualModelName
    userAgent := "antigravity" }

/-! ## API-key gate (`quota_manager.js` lines 658–712) -/

def isWordDash (c : Char) : Bool := isWordChar c || c = '-'

/-- `isProtectedApiPath`: the test of `^\/(?:[\w-]+\/)?v1\//` — a leading
slash, an optional single `[\w-]+` segment, then `v1/`. -/
def isProtectedApiPath (pathname : String) : Bool :=
  match pathname.toList with
  | '/' :: rest =>
    "v1/".toList.isPrefixOf rest ||
    (let seg := rest.takeWhile isWordDash
     !seg.isEmpty && "/v1/".toList.isPrefixOf (rest.drop seg.length))
  | _ => false

/-- The request headers consulted by the gate, already lower-cased by the
HTTP framework; `none` is an absent header. -/
structure ReqHeaders where
  authorization : Option String := none
  xApiKey : Option String := none
  apiKey : Option String := none
  xApi_key : Option String := none
  api_key : Option String := none

structure HttpReq where
  path : String
  headers : ReqHeaders

/-- JS truthiness of a possibly-absent header or config string. -/
def truthyOpt : Option String → Bool
  | some s => s ≠ ""
  | none => false

/-- `candidates.find(v => v) || null`. -/
def firstTruthy : List (Option String) → Option String
  | [] => none
  | o :: rest => if truthyOpt o then o else firstTruthy rest

/-- `extractApiKeyFromHeaders` from the source. -/
def extractApiKeyFromHeaders (req : HttpReq) : Option String :=
  let alt := firstTruthy
    [req.headers.xApiKey, req.headers.apiKey, req.headers.xApi_key, req.headers.api_key]
  match req.headers.authorization with
  | some a =>
    if "Bearer ".toList.isPrefixOf a.toList then some (String.mk (a.toList.drop 7))
    else if a ≠ "" then some a
    else alt
  | none => alt

structure SecurityConfig where
  apiKey : Option String := none

/-- `validateApiKey` from the source, as the rejection status it produces
(`none` means the request is let through). -/
def validateApiKeyStatus (cfg : SecurityConfig) (req : HttpReq) : Option Nat :=
  if !truthyOpt cfg.apiKey then some 503
  else
    match extractApiKeyFromHeaders req with
    | some k => if k ≠ "" ∧ cfg.apiKey = some k then none else some 401
    | none => some 401

/-- The global middleware: the key check is applied exactly on protected
paths. -/
def apiGateStatus (cfg : SecurityConfig) (req : HttpReq) : Option Nat :=
  if isProtectedApiPath req.path then validateApiKeyStatus cfg req else none

/-! ## OpenAI stream re-emission (`quota_manager.js` lines 595–612, 1930–1967) -/

structure StreamToolCall where
  id : String
  typ : String
  fname : String
  fargs : String
deriving DecidableEq

structure IndexedToolCall where
  index : Nat
  id : String
  typ : String
  fname : String
  fargs : String
deriving DecidableEq

/-- An upstream event as classified and delivered to the stream callback. -/
inductive StreamEvent where
  | text (content : String)
  | thinking (content : String)
  | tool_calls (calls : List StreamToolCall)
  | other
deriving DecidableEq

/-- `content.replace(/<思考>[\s\S]*?<\/思考>/g, "")` in the `text` branch. -/
def stripInlineThinking (s : String) : String :=
  String.mk (stripTagBlocks "<思考>".toList "</思考>".toList s.toList)

/-- `content.replace(/^<思考>\n?|\n?<\/思考>$/g, "")` in the `thinking`
branch: one leading tag (plus an optional following newline) and one
trailing tag (plus an optional preceding newline) are removed. -/
def stripThinkingEdges (s : String) : String :=
  let l1 :=
    match s.toList with
    | '<' :: '思' :: '考' :: '>' :: rest =>
      (match rest with
       | '\n' :: r => r
       | r => r)
    | l => l
  let l2 :=
    match l1.reverse with
    | '>' :: '考' :: '思' :: '/' :: '<' :: rrest =>
      (match rrest with
       | '\n' :: r => r.reverse
       | r => r.reverse)
    | _ => l1
  String.mk l2

structure Delta where
  content : Option String := none
  reasoning_content : Option String := none
  tool_calls : Option (List IndexedToolCall) := none
deriving DecidableEq

/-- `Object.keys(delta).length > 0`. -/
def deltaNonempty (d : Delta) : Bool :=
  d.content.isSome || d.reasoning_content.isSome || d.tool_calls.isSome

/-- The delta computed by the non-image stream callback for one upstream
event. -/
def eventDelta : StreamEvent → Delta
  | .tool_calls calls =>
    { tool_calls := some (calls.enum.map (fun p =>
        { index := p.1, id := p.2.id, typ := p.2.typ,
          fname := p.2.fname, fargs := p.2.fargs })) }
  | .thinking c => { reasoning_content := some (stripThinkingEdges c) }
  | .text c =>
    if stripInlineThinking c = "" then {}
    else { content := some (stripInlineThinking c) }
  | .other => {}

def isToolCallsEvt : StreamEvent → Bool
  | .tool_calls _ => true
  | _ => false

structure ChatChunk where
  id : String
  created : Nat
  model : String
  delta : Delta
  finish_reason : Option String
  usage : Option Int
deriving DecidableEq

/-- The `chat.completion`-shaped JSON body written by the non-stream error
path of the catch block. -/
structure CompletionErrorBody where
  id : String
  created : Nat
  model : String
  content : String
  finish_reason : String
deriving DecidableEq

/-- One write to the client connection. -/
inductive ClientWrite where
  | streamChunk (c : ChatChunk)
  | doneLine
  | json (status : Nat) (body : CompletionErrorBody)
deriving DecidableEq

/-- `endStream`: the empty-delta terminating chunk followed by
`data: [DONE]`. -/
def endStreamWrites (id : String) (created : Nat) (model : String)
    (finish : String) (usage : Option Int) : List ClientWrite :=
  [.streamChunk { id := id, created := created, model := model, delta := {},
                  finish_reason := some finish, usage := usage },
   .doneLine]

/-- One step of the non-image stream callback: emit the chunk when the delta
is non-empty, recording whether a tool-call event was emitted. -/
def streamStep (id : String) (created : Nat) (model : String)
    (st : List ClientWrite × Bool) (ev : StreamEvent) : List ClientWrite × Bool :=
  let d := eventDelta ev
  if deltaNonempty d then
    (st.1 ++ [.streamChunk { id := id, created := created, model := model,
                             delta := d, finish_reason := none, usage := none }],
     st.2 || isToolCallsEvt ev)
  else st

/-- The per-event writes and the final `hasToolCall` flag of the non-image
stream branch. -/
def runOpenAIStream (id : String) (created : Nat) (model : String)
    (events : List StreamEvent) : List ClientWrite × Bool :=
  events.foldl (streamStep id created model) ([], false)

/-- Everything the non-image stream branch writes for a full event stream:
the emitted chunks, then `endStream` with `tool_calls` or `stop`. -/
def openAIStreamWrites (id : String) (created : Nat) (model : String)
    (events : List StreamEvent) (usage : Option Int) : List ClientWrite :=
  let r := runOpenAIStream id created model events
  r.1 ++ endStreamWrites id created model (if r.2 then "tool_calls" else "stop") usage

/-! ## Chat-completion catch block (`quota_manager.js` lines 1997–2030) -/

/-- The writes the catch block of `createChatCompletionHandler` performs on
the client connection when the upstream call threw: nothing at all when the
response has already started (`res.headersSent`), otherwise an in-stream
error chunk plus a normal `stop` termination for streaming requests, and a
`chat.completion` JSON body carrying the prefixed message at
`error.statusCode || 500` for non-streaming ones. -/
def chatCompletionCatch (stream headersSent : Bool) (errStatus : Option Nat)
    (msg : String) (id : String) (created : Nat) (model : Option String) :
    List ClientWrite :=
  if headersSent then []
  else if stream then
    .streamChunk { id := id, created := created, model := model.getD "unknown",
                   delta := { content := some ("错误: " ++ msg) },
                   finish_reason := none, usage := none } ::
    endStreamWrites id created (model.getD "unknown") "stop" none
  else
    [.json (errStatus.getD 500)
      { id := id, created := created, model := model.getD "unknown",
        content := "错误: " ++ msg, finish_reason := "stop" }]

/-! ## TOML account import (`quota_manager.js` lines 801–891, 1250–1319) -/

structure RawAccount where
  access_token : Option String := none
  accessToken : Option String := none
  refresh_token : Option String := none
  refreshToken : Option String := none
  disabled : Option Bool := none
  enable : Option Bool := none
  expires_in : Option Int := none
  expiresIn : Option Int := none
  timestamp : Option Int := none
  projectId : Option String := none
  project_id : Option String := none
  email : Option String := none

/-- A normalized account record.  The remaining `copyPairs` fields of the
source behave exactly like `email`: copied when present; they are elided
from the model. -/
structure Account where
  access_token : String
  refresh_token : String
  expires_in : Int
  timestamp : Int
  enable : Bool
  projectId : Option String := none
  email : Option String := none
deriving DecidableEq

/-- `normalizeTomlAccount` from the source (`now` stands for `Date.now()`
inside `parseTimestamp`). -/
def normalizeTomlAccount (filterDisabled : Bool) (now : Int)
    (raw : RawAccount) : Option Account :=
  let accessToken := raw.access_token <|> raw.accessToken
  let refreshToken := raw.refresh_token <|> raw.refreshToken
  let isDisabled := raw.disabled = some true || raw.enable = some false
  if filterDisabled && isDisabled then none
  else if !truthyOpt accessToken || !truthyOpt refreshToken then none
  else some
    { access_token := accessToken.getD ""
      refresh_token := refreshToken.getD ""
      expires_in := (raw.expires_in <|> raw.expiresIn).getD 3600
      timestamp := raw.timestamp.getD now
      enable := !isDisabled
      projectId := raw.projectId <|> raw.project_id
      email := raw.email }

/-- The shallow spread `{...current, ...acc}` for two normalized records:
the always-present fields come from `acc`, optional fields fall back to
`current`. -/
def overlayAccount (cur acc : Account) : Account :=
  { access_token := acc.access_token
    refresh_token := acc.refresh_token
    expires_in := acc.expires_in
    timestamp := acc.timestamp
    enable := acc.enable
    projectId := acc.projectId <|> cur.projectId
    email := acc.email <|> cur.email }

/-- A JS `Map` over string keys: `set` updates in place, keeping insertion
order, or appends. -/
def mapSet : List (String × Account) → String → Account → List (String × Account)
  | [], k, v => [(k, v)]
  | (k1, v1) :: rest, k, v =>
    if k1 = k then (k, v) :: rest else (k1, v1) :: mapSet rest k v

def mapGet : List (String × Account) → String → Option Account
  | [], _ => none
  | (k1, v1) :: rest, k => if k1 = k then some v1 else mapGet rest k

/-- `acc.refresh_token || acc.access_token || fallback`. -/
def accountKey (fallback : String) (acc : Account) : String :=
  if acc.refresh_token ≠ "" then acc.refresh_token
  else if acc.access_token ≠ "" then acc.access_token
  else fallback

/-- `mergeAccounts` from the source. -/
def mergeAccounts (existing incoming : List Account) (replaceExisting : Bool) :
    List Account :=
  if replaceExisting then incoming
  else
    let m1 := existing.enum.foldl (fun m p =>
      mapSet m (accountKey ("existing-" ++ toString p.1) p.2) p.2) []
    let m2 := incoming.enum.foldl (fun m p =>
      let k := accountKey ("incoming-" ++ toString p.1) p.2
      match mapGet m k with
      | some cur => mapSet m k (overlayAccount cur p.2)
      | none => mapSet m k p.2) m1
    m2.map (fun p => p.2)

structure ImportResult where
  imported : Nat
  skipped : Nat
  total : Nat
  merged : List Account
deriving DecidableEq

inductive ImportOutcome where
  | ok (r : ImportResult)
  | badRequest (msg : String)
deriving DecidableEq

/-- The `POST /auth/accounts/import-toml` handler from the list of records
parsed out of the TOML body onward (`parsed.accounts`); `existing` is the
store read from disk, `merged` is what is written back. -/
def importTomlAccounts (existing : List Account) (accountsFromToml : List RawAccount)
    (replaceExisting filterDisabled : Bool) (now : Int) : ImportOutcome :=
  if accountsFromToml.isEmpty then .badRequest "未在 TOML 中找到 accounts 列表"
  else
    let normalized := accountsFromToml.filterMap (normalizeTomlAccount filterDisabled now)
    let skipped := accountsFromToml.length - normalized.length
    if normalized.isEmpty then .badRequest "TOML 中没有有效的账号信息"
    else
      let merged := mergeAccounts existing normalized replaceExisting
      .ok { imported := normalized.length, skipped := skipped,
            total := merged.length, merged := merged }

/-- Specification-side merge policy, written from the spec's words: an
incoming record shallow-overlays, in place, the existing entry indexed by
the same key (`refresh_token`, falling back to `access_token`) and is
appended when its key is new. -/
def specApplyOne (ms : List Account) (b : Account) : List Account :=
  if ms.any (fun e => accountKey "" e == accountKey "" b) then
    ms.map (fun e =>
      if accountKey "" e = accountKey "" b then overlayAccount e b else e)
  else ms ++ [b]

def specMerge (existing incoming : List Account) : List Account :=
  incoming.foldl specApplyOne existing

/-! ## Specification-side predicates for the schema cleaner

These are written from the words of the claims about `cleanJsonSchema`
(dropped fields, removed empty `required` arrays, preservation of the other
fields) so that the cleaner can be checked against them. -/

/-- The top-level `description` field of a schema, when there is one. -/
def topDescription : JVal → Option JVal
  | .obj fs => lookupField fs "description"
  | _ => none

/-- A key the claim lists as dropped or extracted. -/
def bannedKey (k : String) : Bool :=
  k ∈ fieldsToRemove || k ∈ validationKeys

mutual

/-- No object level of the value contains a dropped or extracted field, and
none contains a `required` field holding an empty array. -/
def noBannedVal : JVal → Bool
  | .arr xs => noBannedList xs
  | .obj fs => noBannedFields fs
  | _ => true

def noBannedList : List JVal → Bool
  | [] => true
  | x :: xs => noBannedVal x && noBannedList xs

def noBannedFields : List (String × JVal) → Bool
  | [] => true
  | (k, v) :: fs =>
    !bannedKey k &&
    !(k = "required" && (match v with | .arr [] => true | _ => false)) &&
    noBannedVal v && noBannedFields fs

end

mutual

/-- Preservation of the input fields in the output, per the claim: at every
object level, every field that is not dropped or extracted, is not a
`required` holding an empty array (which must be absent from the output),
and is not the top-level `description` (which may receive the surfaced
suffix) must appear in the output with its value preserved recursively;
array items are preserved pointwise, scalars exactly. -/
def preservesVal (top : Bool) : JVal → JVal → Bool
  | .obj fs, .obj gs => preservesFieldsIn top fs gs
  | .arr xs, .arr ys => preservesList top xs ys
  | .null, .null => true
  | .bool a, .bool b => a = b
  | .num a, .num b => a = b
  | .str a, .str b => a = b
  | _, _ => false

def preservesList (top : Bool) : List JVal → List JVal → Bool
  | [], [] => true
  | x :: xs, y :: ys => preservesVal top x y && preservesList top xs ys
  | _, _ => false

def preservesFieldsIn (top : Bool) : List (String × JVal) → List (String × JVal) → Bool
  | [], _ => true
  | (k, v) :: fs, gs =>
    (if bannedKey k then true
     else if k = "required" && (match v with | .arr [] => true | _ => false) then
       !hasField gs k
     else if top && k = "description" then true
     else
       match lookupField gs k with
       | some w => preservesVal false v w
       | none => false) && preservesFieldsIn top fs gs

end

mutual

/-- Well-formed JSON values: object keys are unique at every level, which is
automatic for values produced by `JSON.parse`. -/
def wfVal : JVal → Bool
  | .arr xs => wfList xs
  | .obj fs => wfFields fs
  | _ => true

def wfList : List JVal → Bool
  | [] => true
  | x :: xs => wfVal x && wfList xs

def wfFields : List (String × JVal) → Bool
  | [] => true
  | (k, v) :: fs => !hasField fs k && wfVal v && wfFields fs

end

/-! ## Theorems -/

/-- C4: for every request built by `generateRequestBody`, thinking is
enabled in `generationConfig.thinkingConfig` exactly when the model name
ends with `-thinking`, equals `gemini-2.5-pro`, starts with
`gemini-3-pro-`, or is `rev19-uic3-1p` or `gpt-oss-120b-medium`, except
that a model name containing `claude` together with an assistant message
carrying non-empty `tool_calls` in the history disables it; the budget is
1024 when enabled and 0 otherwise. -/
theorem c4_thinking_enable (dflt : Defaults) (systemText rid : String)
    (tm : ToolSigMap) (xm : TextSigMap) (msgs : List OMessage)
    (modelName : String) (params : Params) (tools : Option (List OTool))
    (token : TokenInfo) :
    (generateRequestBody dflt systemText rid tm xm msgs modelName params tools
        token).request.generationConfig.thinkingConfig =
      { includeThoughts :=
          (modelName.endsWith "-thinking" || modelName = "gemini-2.5-pro" ||
           modelName.startsWith "gemini-3-pro-" || modelName = "rev19-uic3-1p" ||
           modelName = "gpt-oss-120b-medium") &&
          !(strContains modelName "claude" &&
            msgs.any (fun m =>
              decide (m.role = ORole.assistant) &&
              (match m.tool_calls with
               | some l => !l.isEmpty
               | none => false))),
        thinkingBudget :=
          if (modelName.endsWith "-thinking" || modelName = "gemini-2.5-pro" ||
              modelName.startsWith "gemini-3-pro-" || modelName = "rev19-uic3-1p" ||
              modelName = "gpt-oss-120b-medium") &&
             !(strContains modelName "claude" &&
               msgs.any (fun m =>
                 decide (m.role = ORole.assistant) &&
                 (match m.tool_calls with
                  | some l => !l.isEmpty
                  | none => false)))
          then 1024 else 0 } := by
  simp only [generateRequestBody, generateGenerationConfig]
  split <;> rfl

/-- C6 counterexample: a `text` event whose content carries an inline
`<思考>…</思考>` marker produces, over the whole stream, only a `content`
chunk with the marker stripped and the normal termination — the inner text
`X` is never surfaced as `reasoning_content`. -/
theorem c6_counterexample :
    openAIStreamWrites "id" 1 "m" [.text "a<思考>X</思考>b"] none =
      [.streamChunk { id := "id", created := 1, model := "m",
                      delta := { content := some "ab" },
                      finish_reason := none, usage := none },
       .streamChunk { id := "id", created := 1, model := "m", delta := {},
                      finish_reason := some "stop", usage := none },
       .doneLine] := by
  decide

/-- C6 amended: in the OpenAI stream callback, a `text` event has its
inline `<思考>…</思考>` markers stripped from the `content` delta (the
event is dropped when nothing remains) and the inner text is discarded —
`reasoning_content` is never set for a `text` event; `reasoning_content` is
produced only from `thinking` events, whose boundary tags are removed. -/
theorem c6_text_marker_handling (s : String) :
    eventDelta (.text s) =
      (if stripInlineThinking s = "" then {}
       else { content := some (stripInlineThinking s) }) ∧
    (eventDelta (.text s)).reasoning_content = none ∧
    eventDelta (.thinking s) = { reasoning_content := some (stripThinkingEdges s) } := by
  refine ⟨rfl, ?_, rfl⟩
  by_cases h : stripInlineThinking s = "" <;> simp [eventDelta, h]

/-- C6 witness: the amended statement at a concrete `text` event. -/
theorem c6_text_marker_handling_witness :
    eventDelta (.text "a<思考>X</思考>b") = { content := some "ab" } ∧
    (eventDelta (.text "a<思考>X</思考>b")).reasoning_content = none := by
  have h := c6_text_marker_handling "a<思考>X</思考>b"
  refine ⟨?_, h.2.1⟩
  rw [h.1]
  decide

/-- C7 counterexample: an upstream error raised after the response has
begun (`res.headersSent`) causes the catch block to write nothing at all to
the client — no `错误: ` content chunk and no `stop` termination are
re-emitted. -/
theorem c7_counterexample :
    chatCompletionCatch true true (some 502) "boom" "id" 1 (some "m") = [] := by
  rfl

/-- C7 amended: an upstream error reaching the catch block after the
response has begun produces no further client output; before the first
write, a streaming request gets an in-stream content chunk prefixed
`错误: ` followed by a normal `stop` termination and `[DONE]`, and a
non-streaming request gets a `chat.completion`-shaped JSON body whose
assistant content is prefixed `错误: `, at the upstream-reported status
code or 500. -/
theorem c7_error_emission (stream headersSent : Bool) (errStatus : Option Nat)
    (msg id : String) (created : Nat) (model : Option String) :
    (headersSent = true →
      chatCompletionCatch stream headersSent errStatus msg id created model = []) ∧
    (headersSent = false → stream = true →
      chatCompletionCatch stream headersSent errStatus msg id created model =
        .streamChunk { id := id, created := created, model := model.getD "unknown",
                       delta := { content := some ("错误: " ++ msg) },
                       finish_reason := none, usage := none } ::
        endStreamWrites id created (model.getD "unknown") "stop" none) ∧
    (headersSent = false → stream = false →
      chatCompletionCatch stream headersSent errStatus msg id created model =
        [.json (errStatus.getD 500)
          { id := id, created := created, model := model.getD "unknown",
            content := "错误: " ++ msg, finish_reason := "stop" }]) := by
  refine ⟨fun h => by subst h; rfl, fun h hs => by subst h; subst hs; rfl,
    fun h hs => by subst h; subst hs; rfl⟩

/-- C7 witness: the amended statement at concrete inputs, in the
stream-before-first-write case. -/
theorem c7_error_emission_witness :
    chatCompletionCatch true false (some 502) "boom" "id" 1 (some "m") =
      [.streamChunk { id := "id", created := 1, model := "m",
                      delta := { content := some "错误: boom" },
                      finish_reason := none, usage := none },
       .streamChunk { id := "id", created := 1, model := "m", delta := {},
                      finish_reason := some "stop", usage := none },
       .doneLine] := by
  have h := (c7_error_emission true false (some 502) "boom" "id" 1 (some "m")).2.1 rfl rfl
  rw [h]
  decide

/-- The second component of a stream step is the running `hasToolCall`
flag: it is set exactly by a `tool_calls` event (whose delta is always
non-empty). -/
theorem streamStep_snd (id : String) (created : Nat) (model : String)
    (st : List ClientWrite × Bool) (ev : StreamEvent) :
    (streamStep id created model st ev).2 = (st.2 || isToolCallsEvt ev) := by
  cases ev <;> simp [streamStep, eventDelta, deltaNonempty, isToolCallsEvt] <;>
    split <;> simp

/-- The `hasToolCall` flag after a whole stream: some `tool_calls` event
occurred. -/
theorem runOpenAIStream_snd (id : String) (created : Nat) (model : String) :
    ∀ (events : List StreamEvent) (init : List ClientWrite × Bool),
      (events.foldl (streamStep id created model) init).2 =
        (init.2 || events.any isToolCallsEvt) := by
  intro events
  induction events with
  | nil => intro init; simp
  | cons e es ih =>
    intro init
    simp only [List.foldl_cons, List.any_cons]
    rw [ih, streamStep_snd]
    cases init.2 <;> cases isToolCallsEvt e <;> simp

/-- C9: an OpenAI-dialect stream terminates with an empty-delta chunk whose
`finish_reason` is `tool_calls` when some tool-call event was emitted
during the stream and `stop` otherwise, followed by the `[DONE]` line. -/
theorem c9_stream_termination (id : String) (created : Nat) (model : String)
    (events : List StreamEvent) (usage : Option Int) :
    openAIStreamWrites id created model events usage =
      (runOpenAIStream id created model events).1 ++
      [.streamChunk { id := id, created := created, model := model, delta := {},
                      finish_reason :=
                        some (if events.any isToolCallsEvt then "tool_calls" else "stop"),
                      usage := usage },
       .doneLine] := by
  simp only [openAIStreamWrites, endStreamWrites, runOpenAIStream,
    runOpenAIStream_snd, Bool.false_or]

end AG

namespace AG

/-- C5: on every path matching the protected-path pattern the API-key check
is applied: a missing or empty configured key rejects with 503; with a key
configured, a missing or mismatched provided key rejects with 401 and a
matching one passes; the provided key is taken from `Authorization` (Bearer
or bare) and otherwise from the first non-empty of `x-api-key`, `api-key`,
`x-api_key`, `api_key`. -/
theorem c5_api_key_gate (cfg : SecurityConfig) (req : HttpReq)
    (hp : isProtectedApiPath req.path = true) :
    apiGateStatus cfg req = validateApiKeyStatus cfg req ∧
    (truthyOpt cfg.apiKey = false → apiGateStatus cfg req = some 503) ∧
    (∀ k, truthyOpt cfg.apiKey = true → extractApiKeyFromHeaders req = some k →
      cfg.apiKey ≠ some k → apiGateStatus cfg req = some 401) ∧
    (truthyOpt cfg.apiKey = true → extractApiKeyFromHeaders req = none →
      apiGateStatus cfg req = some 401) ∧
    (∀ k, truthyOpt cfg.apiKey = true → extractApiKeyFromHeaders req = some k →
      cfg.apiKey = some k → apiGateStatus cfg req = none) ∧
    (∀ a, req.headers.authorization = some a →
      "Bearer ".toList.isPrefixOf a.toList = true →
      extractApiKeyFromHeaders req = some (String.mk (a.toList.drop 7))) ∧
    (∀ a, req.headers.authorization = some a →
      "Bearer ".toList.isPrefixOf a.toList = false → a ≠ "" →
      extractApiKeyFromHeaders req = some a) ∧
    ((req.headers.authorization = none ∨ req.headers.authorization = some "") →
      extractApiKeyFromHeaders req = firstTruthy
        [req.headers.xApiKey, req.headers.apiKey, req.headers.xApi_key,
         req.headers.api_key]) := by
  have hg : apiGateStatus cfg req = validateApiKeyStatus cfg req := by
    simp [apiGateStatus, hp]
  refine ⟨hg, ?_, ?_, ?_, ?_, ?_, ?_, ?_⟩
  · intro h
    rw [hg]
    simp [validateApiKeyStatus, h]
  · intro k htr hext hne
    rw [hg]
    simp only [validateApiKeyStatus, htr, Bool.not_true, Bool.false_eq_true,
      if_false, hext]
    rw [if_neg]
    intro hand
    exact hne hand.2
  · intro htr hext
    rw [hg]
    simp [validateApiKeyStatus, htr, hext]
  · intro k htr hext heq
    rw [hg]
    have hk : k ≠ "" := by
      rw [heq] at htr
      simpa [truthyOpt] using htr
    simp [validateApiKeyStatus, truthyOpt, htr, hext, hk, heq]
  · intro a ha hpre
    have hpre2 : "Bearer ".toList <+: a.toList :=
      List.isPrefixOf_iff_prefix.mp hpre
    simp at hpre2
    simp [extractApiKeyFromHeaders, ha, hpre2]
  · intro a ha hpre hne
    have hpre2 : ¬ "Bearer ".toList <+: a.toList := by
      intro hc
      rw [← List.isPrefixOf_iff_prefix] at hc
      rw [hc] at hpre
      exact Bool.true_eq_false.mp hpre
    simp at hpre2
    simp [extractApiKeyFromHeaders, ha, hpre2, hne]
  · intro hor
    rcases hor with h | h <;> simp [extractApiKeyFromHeaders, h]

/-- C5 witness: a protected path with a configured key and a matching
Bearer header passes the gate. -/
theorem c5_api_key_gate_witness :
    apiGateStatus { apiKey := some "sk" }
      { path := "/v1/chat/completions",
        headers := { authorization := some "Bearer sk" } } = none := by
  exact (c5_api_key_gate { apiKey := some "sk" }
    { path := "/v1/chat/completions",
      headers := { authorization := some "Bearer sk" } }
    (by decide)).2.2.2.2.1 "sk" (by decide) (by decide) (by decide)

/-- C10 counterexample: a protected request carrying an empty (hence wrong)
`Authorization` value together with the correct key in `x-api-key` is
accepted, not rejected with 401 — the alternative headers are consulted
even though an Authorization header is present. -/
theorem c10_counterexample :
    apiGateStatus { apiKey := some "k" }
      { path := "/v1/chat/completions",
        headers := { authorization := some "", xApiKey := some "k" } } = none ∧
    ¬ apiGateStatus { apiKey := some "k" }
      { path := "/v1/chat/completions",
        headers := { authorization := some "", xApiKey := some "k" } } = some 401 := by
  constructor <;> decide

/-- C10 amended: when a request to a protected path carries a *non-empty*
`Authorization` header, that header's value (Bearer-stripped when it starts
with `Bearer `) is the only key compared against the configured key — the
alternative headers are consulted only when the Authorization header is
absent or empty — so a non-empty wrong Authorization value with the
correct key in `x-api-key` is rejected with 401. -/
theorem c10_authorization_precedence (cfg : SecurityConfig) (req : HttpReq)
    (a key : String)
    (hauth : req.headers.authorization = some a) (hne : a ≠ "")
    (hcfg : cfg.apiKey = some key) (hkey : key ≠ "")
    (hprot : isProtectedApiPath req.path = true)
    (hmismatch :
      (if "Bearer ".toList.isPrefixOf a.toList then String.mk (a.toList.drop 7)
       else a) ≠ key) :
    extractApiKeyFromHeaders req =
      some (if "Bearer ".toList.isPrefixOf a.toList then String.mk (a.toList.drop 7)
            else a) ∧
    apiGateStatus cfg req = some 401 := by
  have hext : extractApiKeyFromHeaders req =
      some (if "Bearer ".toList.isPrefixOf a.toList then String.mk (a.toList.drop 7)
            else a) := by
    by_cases hb : "Bearer ".toList <+: a.toList
    · have hb4 : ['B', 'e', 'a', 'r', 'e', 'r', ' '] <+: a.data := hb
      simp [extractApiKeyFromHeaders, hauth, hb4]
    · have hb4 : ¬ ['B', 'e', 'a', 'r', 'e', 'r', ' '] <+: a.data := hb
      simp [extractApiKeyFromHeaders, hauth, hb4, hne]
  refine ⟨hext, ?_⟩
  have htr : truthyOpt cfg.apiKey = true := by simp [truthyOpt, hcfg, hkey]
  simp only [apiGateStatus, hprot, if_true, validateApiKeyStatus, htr,
    Bool.not_true, Bool.false_eq_true, if_false, hext]
  rw [if_neg]
  intro hand
  rw [hcfg] at hand
  exact hmismatch (Option.some.inj hand.2.symm)

/-- C10 witness: the amended statement at a concrete request with a wrong
Bearer value and the correct key in `x-api-key`. -/
theorem c10_authorization_precedence_witness :
    extractApiKeyFromHeaders
      { path := "/v1/chat/completions",
        headers := { authorization := some "Bearer wrong", xApiKey := some "k" } } =
      some "wrong" ∧
    apiGateStatus { apiKey := some "k" }
      { path := "/v1/chat/completions",
        headers := { authorization := some "Bearer wrong", xApiKey := some "k" } } =
      some 401 := by
  have h := c10_authorization_precedence { apiKey := some "k" }
    { path := "/v1/chat/completions",
      headers := { authorization := some "Bearer wrong", xApiKey := some "k" } }
    "Bearer wrong" "k" rfl (by decide) rfl (by decide) (by decide) (by decide)
  exact ⟨by rw [h.1]; decide, h.2⟩

end AG

namespace AG

/-- C3 counterexample: on the input cited by the claim the cleaner produces
*no* top-level `description` at all — the suffix is only ever appended to an
already-existing `description` key, and constraints elided at nested levels
are not surfaced — so the output differs from the claimed one. -/
theorem c3_counterexample :
    topDescription (cleanJsonSchema (.obj [("type", .str "object"),
      ("properties", .obj [("x", .obj [("type", .str "string"),
        ("minLength", .num 3), ("pattern", .str "^a")])]),
      ("additionalProperties", .bool false),
      ("required", .arr [.str "x"])])) = none ∧
    topDescription (.obj [("type", .str "object"),
      ("properties", .obj [("x", .obj [("type", .str "string")])]),
      ("required", .arr [.str "x"]),
      ("description",
        .str "(minLength: minLength, pattern: pattern, no additional properties)")]) =
      some (.str "(minLength: minLength, pattern: pattern, no additional properties)") ∧
    cleanJsonSchema (.obj [("type", .str "object"),
      ("properties", .obj [("x", .obj [("type", .str "string"),
        ("minLength", .num 3), ("pattern", .str "^a")])]),
      ("additionalProperties", .bool false),
      ("required", .arr [.str "x"])]) ≠
    .obj [("type", .str "object"),
      ("properties", .obj [("x", .obj [("type", .str "string")])]),
      ("required", .arr [.str "x"]),
      ("description",
        .str "(minLength: minLength, pattern: pattern, no additional properties)")] := by
  refine ⟨rfl, rfl, fun h => ?_⟩
  have e1 : topDescription (cleanJsonSchema (.obj [("type", .str "object"),
      ("properties", .obj [("x", .obj [("type", .str "string"),
        ("minLength", .num 3), ("pattern", .str "^a")])]),
      ("additionalProperties", .bool false),
      ("required", .arr [.str "x"])])) = none := rfl
  rw [h] at e1
  exact Option.noConfusion e1

end AG

namespace AG

/-- A signature found through the text-signature lookup comes from the map,
so in a reachable map state it is non-empty. -/
theorem getTextThoughtSignature_wf (m : TextSigMap) (hwf : textSigMapWF m)
    (t : String) (p : SigPayload)
    (h : getTextThoughtSignature m t = some p) : p.signature ≠ "" := by
  unfold getTextThoughtSignature at h
  split at h
  · exact absurd h (by simp)
  · split at h
    · exact hwf _ _ h
    · split at h
      · exact hwf _ _ h
      · split at h
        · exact absurd h (by simp)
        · exact hwf _ _ h

/-- C1: an assistant message with non-empty text, for a model whose name
contains `gemini-3`, has its cached thought signature looked up by exact,
then trimmed, then normalized key; when no signature is found the text part
is omitted from the emitted `model` turn, leaving only the tool-call parts,
and when one is found the emitted text part carries the signature in its
`thoughtSignature` field. -/
theorem c1_gemini3_text_signature (tm : ToolSigMap) (xm : TextSigMap)
    (hwf : textSigMapWF xm) (msg : OMessage) (out : List GMessage)
    (modelName : String)
    (hmodel : strContains modelName "gemini-3" = true)
    (htext : jsTrim (assistantContentText msg.content) ≠ "") :
    handleAssistantMessage tm xm msg out modelName =
      out ++ [{ role := GRole.model,
                parts :=
                  (match getTextThoughtSignature xm (assistantContentText msg.content) with
                   | none => []
                   | some p =>
                     [{ text := some p.text, thoughtSignature := some p.signature }]) ++
                  (if (match msg.tool_calls with
                       | some l => !l.isEmpty
                       | none => false) then
                     antigravityToolParts tm (msg.tool_calls.getD []) else []) }] ∧
    getTextThoughtSignature xm (assistantContentText msg.content) =
      (if (xm (assistantContentText msg.content)).isSome then
         xm (assistantContentText msg.content)
       else if (xm (jsTrim (assistantContentText msg.content))).isSome then
         xm (jsTrim (assistantContentText msg.content))
       else if normalizeTextForSignature (jsTrim (assistantContentText msg.content)) = ""
         then none
       else xm (normalizeTextForSignature (jsTrim (assistantContentText msg.content)))) := by
  refine ⟨?_, by rw [getTextThoughtSignature, if_neg htext]⟩
  cases hp : getTextThoughtSignature xm (assistantContentText msg.content) with
  | none =>
    cases hlast : out.getLast? with
    | none => simp [handleAssistantMessage, hlast, hmodel, htext, hp]
    | some last => simp [handleAssistantMessage, hlast, hmodel, htext, hp]
  | some pay =>
    have hs : pay.signature ≠ "" := getTextThoughtSignature_wf xm hwf _ pay hp
    cases hlast : out.getLast? with
    | none => simp [handleAssistantMessage, hlast, hmodel, htext, hp, jsOptStr, hs]
    | some last => simp [handleAssistantMessage, hlast, hmodel, htext, hp, jsOptStr, hs]

/-- C1 witness: a `gemini-3` assistant message whose text has a cached
signature emits a signed text part; the same message under an empty cache
would drop the text. -/
theorem c1_gemini3_text_signature_witness :
    handleAssistantMessage (fun _ => none)
      (fun s => if s = "hello" then
        some { signature := "sig1", text := "hello" } else none)
      { role := ORole.assistant, content := some (.str "hello") } []
      "gemini-3-pro-preview" =
      [{ role := GRole.model,
         parts := [{ text := some "hello", thoughtSignature := some "sig1" }] }] := by
  have hwf : textSigMapWF (fun s => if s = "hello" then
      some { signature := "sig1", text := "hello" } else none) := by
    intro k p h
    change (if k = "hello" then
      some { signature := "sig1", text := "hello" } else none) = some p at h
    split at h
    · cases h
      decide
    · exact Option.noConfusion h
  have h := c1_gemini3_text_signature (fun _ => none)
    (fun s => if s = "hello" then
      some { signature := "sig1", text := "hello" } else none) hwf
    { role := ORole.assistant, content := some (.str "hello") } []
    "gemini-3-pro-preview" (by decide) (by decide)
  rw [h.1]
  rfl

end AG

namespace AG

/-- C2 counterexample: a top-level `description` that coexists with a
validation field is *not* preserved verbatim — it receives the surfaced
constraint suffix — contradicting the claim that every field other than the
dropped and extracted ones is preserved verbatim. -/
theorem c2_counterexample :
    cleanJsonSchema (.obj [("description", .str "desc"), ("maxLength", .num 5)]) =
      .obj [("description", .str "desc (maxLength: maxLength)")] ∧
    topDescription
      (cleanJsonSchema (.obj [("description", .str "desc"), ("maxLength", .num 5)])) ≠
      some (.str "desc") := by
  refine ⟨rfl, fun h => ?_⟩
  have e1 : topDescription
      (cleanJsonSchema (.obj [("description", .str "desc"), ("maxLength", .num 5)])) =
      some (.str "desc (maxLength: maxLength)") := rfl
  rw [h] at e1
  have e2 := Option.some.inj e1
  injection e2 with e3
  exact absurd e3 (by decide)

/-- Sizes of pair components, for the termination of the recursive proofs
below. -/
theorem sizeOf_snd_lt_of_mem {k : String} {v : JVal}
    {fs : List (String × JVal)} (h : (k, v) ∈ fs) : sizeOf v < sizeOf fs := by
  have h1 := List.sizeOf_lt_of_mem h
  have h2 : sizeOf (k, v) = 1 + sizeOf k + sizeOf v := rfl
  omega

/-- A lookup miss means no entry has that key. -/
theorem lookupField_eq_none_iff (k : String) :
    ∀ fs : List (String × JVal),
      lookupField fs k = none ↔ ∀ e ∈ fs, e.1 ≠ k := by
  intro fs
  induction fs with
  | nil => simp [lookupField]
  | cons e rest ih =>
    match e with
    | (k1, v1) =>
      by_cases hk : k1 = k
      · subst hk
        simp [lookupField, ih]
      · simp [lookupField, hk, ih]

/-- With unique keys, membership determines the lookup. -/
theorem lookupField_of_mem :
    ∀ (fs : List (String × JVal)) (k : String) (v : JVal),
      wfFields fs = true → (k, v) ∈ fs → lookupField fs k = some v := by
  intro fs
  induction fs with
  | nil => intro k v _ hm; exact absurd hm (by simp)
  | cons e rest ih =>
    intro k v hwf hm
    match e with
    | (k1, v1) =>
      simp only [wfFields, Bool.and_eq_true, Bool.not_eq_true'] at hwf
      rcases List.mem_cons.mp hm with h | h
      · have hk : k1 = k := (congrArg Prod.fst h).symm
        have hv : v1 = v := (congrArg Prod.snd h).symm
        subst hk
        subst hv
        simp [lookupField]
      · by_cases hk : k1 = k
        · subst hk
          have hhas : hasField rest k1 = true := by
            unfold hasField
            rw [Option.isSome_iff_exists]
            exact ⟨v, ih k1 v hwf.2 h⟩
          rw [hwf.1.1] at hhas
          exact absurd hhas (by simp)
        · simp only [lookupField, if_neg hk]
          exact ih k v hwf.2 h

/-- A lookup hit is a member. -/
theorem mem_of_lookupField :
    ∀ (fs : List (String × JVal)) (k : String) (v : JVal),
      lookupField fs k = some v → (k, v) ∈ fs := by
  intro fs
  induction fs with
  | nil => intro k v h; exact absurd h (by simp [lookupField])
  | cons e rest ih =>
    intro k v h
    match e with
    | (k1, v1) =>
      by_cases hk : k1 = k
      · subst hk
        simp only [lookupField, eq_self_iff_true, if_true, Option.some.injEq] at h
        rw [← h]
        exact List.mem_cons_self _ _
      · simp only [lookupField, if_neg hk] at h
        exact List.mem_cons_of_mem _ (ih k v h)

/-- The values of a well-formed field list are well-formed. -/
theorem wfVal_of_mem :
    ∀ (fs : List (String × JVal)) (k : String) (v : JVal),
      wfFields fs = true → (k, v) ∈ fs → wfVal v = true := by
  intro fs
  induction fs with
  | nil => intro k v _ hm; exact absurd hm (by simp)
  | cons e rest ih =>
    intro k v hwf hm
    match e with
    | (k1, v1) =>
      simp only [wfFields, Bool.and_eq_true] at hwf
      rcases List.mem_cons.mp hm with h | h
      · have hv : v1 = v := (congrArg Prod.snd h).symm
        subst hv
        exact hwf.1.2
      · exact ih k v hwf.2 h

end AG

namespace AG

/-- Unique keys let membership determine lookups. -/
theorem lookupField_of_mem_nodup :
    ∀ (gs : List (String × JVal)) (k : String) (w : JVal),
      (gs.map Prod.fst).Nodup → (k, w) ∈ gs → lookupField gs k = some w := by
  intro gs
  induction gs with
  | nil => intro k w _ hm; exact absurd hm (by simp)
  | cons e rest ih =>
    intro k w hnd hm
    match e with
    | (k1, v1) =>
      simp only [List.map_cons, List.nodup_cons] at hnd
      rcases List.mem_cons.mp hm with h | h
      · have hk : k1 = k := (congrArg Prod.fst h).symm
        have hv : v1 = w := (congrArg Prod.snd h).symm
        subst hk
        subst hv
        simp [lookupField]
      · by_cases hk : k1 = k
        · subst hk
          exact absurd (List.mem_map_of_mem Prod.fst h) (by simpa using hnd.1)
        · simp only [lookupField, if_neg hk]
          exact ih k w hnd.2 h

/-- Well-formed field lists have unique keys. -/
theorem nodup_keys_of_wfFields :
    ∀ fs : List (String × JVal), wfFields fs = true → (fs.map Prod.fst).Nodup := by
  intro fs
  induction fs with
  | nil => intro _; simp
  | cons e rest ih =>
    intro hwf
    match e with
    | (k1, v1) =>
      simp only [wfFields, Bool.and_eq_true, Bool.not_eq_true'] at hwf
      simp only [List.map_cons, List.nodup_cons]
      refine ⟨?_, ih hwf.2⟩
      intro hmem
      rcases List.mem_map.mp hmem with ⟨e2, he2, hfst⟩
      have : lookupField rest k1 = some e2.2 := by
        have he3 : (k1, e2.2) ∈ rest := by
          have : e2 = (k1, e2.2) := by
            rw [← hfst]
          rw [← this]
          exact he2
        exact lookupField_of_mem_nodup rest k1 e2.2 (ih hwf.2) he3
      have hhas : hasField rest k1 = true := by
        unfold hasField
        rw [this]
        rfl
      rw [hwf.1.1] at hhas
      exact absurd hhas (by simp)

/-- Lookup through a key-filter. -/
theorem lookupField_filter_ne (r k : String) :
    ∀ cs : List (String × JVal),
      lookupField (cs.filter (fun p => p.1 ≠ r)) k =
        if k = r then none else lookupField cs k := by
  intro cs
  induction cs with
  | nil => by_cases hk : k = r <;> simp [lookupField, hk]
  | cons e rest ih =>
    match e with
    | (k1, v1) =>
      rw [List.filter_cons]
      by_cases h1 : k1 = r
      · have hc : (decide ((k1, v1).1 ≠ r)) = false := by
          simp [h1]
        rw [hc]
        simp only [Bool.false_eq_true, if_false]
        rw [ih]
        by_cases hk : k = r
        · simp [hk]
        · have hk1 : k1 ≠ k := by
            rw [h1]
            exact Ne.symm hk
          simp [lookupField, hk, hk1]
      · have hc : (decide ((k1, v1).1 ≠ r)) = true := by
          simp [h1]
        rw [hc]
        simp only [if_true]
        by_cases hk : k1 = k
        · subst hk
          have hkr : ¬ k1 = r := h1
          simp [lookupField, hkr]
        · simp only [lookupField, if_neg hk]
          exact ih

end AG

namespace AG

/-- Pruning only ever removes `required` entries. -/
theorem lookupField_prune_ne (cs : List (String × JVal)) (k : String)
    (hk : k ≠ "required") :
    lookupField (pruneEmptyRequired cs) k = lookupField cs k := by
  unfold pruneEmptyRequired
  split
  · rw [lookupField_filter_ne, if_neg hk]
  · rfl

/-- Members survive pruning backwards. -/
theorem mem_of_mem_prune (cs : List (String × JVal)) (e : String × JVal)
    (h : e ∈ pruneEmptyRequired cs) : e ∈ cs := by
  unfold pruneEmptyRequired at h
  split at h
  · exact List.mem_of_mem_filter h
  · exact h

/-- When the cleaned level holds `required: []`, pruning removes the key. -/
theorem prune_removes_empty_required (cs : List (String × JVal))
    (h : lookupField cs "required" = some (.arr [])) :
    hasField (pruneEmptyRequired cs) "required" = false := by
  unfold pruneEmptyRequired
  rw [h]
  unfold hasField
  rw [lookupField_filter_ne]
  simp

/-- When the cleaned level's `required` is not the empty array, pruning is
the identity. -/
theorem prune_id_of_ne (cs : List (String × JVal)) (w : JVal)
    (h : lookupField cs "required" = some w) (hw : w ≠ .arr []) :
    pruneEmptyRequired cs = cs := by
  unfold pruneEmptyRequired
  rw [h]
  match w, hw with
  | .null, _ => rfl
  | .bool b, _ => rfl
  | .num n, _ => rfl
  | .str s, _ => rfl
  | .arr (x :: xs), _ => rfl
  | .arr [], hw => exact absurd rfl hw
  | .obj gs, _ => rfl

/-- When the level has no `required` at all, pruning is the identity. -/
theorem prune_id_of_none (cs : List (String × JVal))
    (h : lookupField cs "required" = none) :
    pruneEmptyRequired cs = cs := by
  unfold pruneEmptyRequired
  rw [h]

/-- Cleaning an array cleans it item by item. -/
theorem cleanItems_length (top : Bool) :
    ∀ xs : List JVal, (cleanItems top xs).length = xs.length := by
  intro xs
  induction xs with
  | nil => rfl
  | cons x rest ih => cases x <;> simp [cleanItems, ih]

/-- Cleaning maps nothing but the empty array to the empty array. -/
theorem cleanValue_ne_arr_nil (top : Bool) (v : JVal) (hv : v ≠ .arr []) :
    cleanValue top v ≠ .arr [] := by
  cases v with
  | null => intro h; simp [cleanValue] at h
  | bool b => intro h; simp [cleanValue] at h
  | num n => intro h; simp [cleanValue] at h
  | str s => intro h; simp [cleanValue] at h
  | obj fs => intro h; simp [cleanValue] at h
  | arr xs =>
    cases xs with
    | nil => exact absurd rfl hv
    | cons x rest =>
      intro h
      simp only [cleanValue, JVal.arr.injEq] at h
      have hl := cleanItems_length top (x :: rest)
      rw [h] at hl
      simp at hl

end AG

namespace AG

/-- The cons equation of `cleanFields` with the value-typing ternary
collapsed: `cleanObject` is the identity on non-objects, so the kept value
is always `cleanValue false v`. -/
theorem cleanFields_cons (top : Bool) (vs : List String) (k : String) (v : JVal)
    (rest : List (String × JVal)) :
    cleanFields top vs ((k, v) :: rest) =
      (if k ∈ fieldsToRemove then cleanFields top vs rest
       else if k ∈ validationKeys then cleanFields top vs rest
       else if k = "description" ∧ vs ≠ [] ∧ top = true then
         (k, .str (descAppend v vs)) :: cleanFields top vs rest
       else (k, cleanValue false v) :: cleanFields top vs rest) := by
  cases v <;> rfl

/-- A key that is neither dropped nor extracted. -/
theorem bannedKey_false_iff (k : String) :
    bannedKey k = false ↔ k ∉ fieldsToRemove ∧ k ∉ validationKeys := by
  simp [bannedKey]

/-- Lookups through a cleaned level, away from a rewritten top-level
description: each surviving key maps to its cleaned value. -/
theorem lookupField_cleanFields (top : Bool) (vs : List String) (k : String)
    (hbk : bannedKey k = false)
    (hd : ¬(k = "description" ∧ vs ≠ [] ∧ top = true)) :
    ∀ fs, lookupField (cleanFields top vs fs) k =
      (lookupField fs k).map (cleanValue false) := by
  have hparts := (bannedKey_false_iff k).mp hbk
  intro fs
  induction fs with
  | nil => simp [cleanFields, lookupField]
  | cons e rest ih =>
    match e with
    | (k1, v1) =>
      rw [cleanFields_cons]
      by_cases h1 : k1 ∈ fieldsToRemove
      · rw [if_pos h1, ih]
        have hk : k1 ≠ k := fun he => hparts.1 (he ▸ h1)
        simp [lookupField, hk]
      · rw [if_neg h1]
        by_cases h2 : k1 ∈ validationKeys
        · rw [if_pos h2, ih]
          have hk : k1 ≠ k := fun he => hparts.2 (he ▸ h2)
          simp [lookupField, hk]
        · rw [if_neg h2]
          by_cases h3 : k1 = "description" ∧ vs ≠ [] ∧ top = true
          · rw [if_pos h3]
            have hk : k1 ≠ k := fun he => hd (he ▸ h3)
            simp [lookupField, hk, ih]
          · rw [if_neg h3]
            by_cases hk : k1 = k
            · subst hk
              simp [lookupField]
            · simp [lookupField, hk, ih]

/-- Every entry of a cleaned level comes from an input entry with the same,
non-banned key; its value is the cleaned input value, except for a
description rewritten to a string. -/
theorem mem_cleanFields (top : Bool) (vs : List String) :
    ∀ (fs : List (String × JVal)) (k : String) (w : JVal),
      (k, w) ∈ cleanFields top vs fs →
      bannedKey k = false ∧
      ∃ v, (k, v) ∈ fs ∧ (w = cleanValue false v ∨ ∃ s, w = .str s) := by
  intro fs
  induction fs with
  | nil => intro k w h; rw [cleanFields] at h; exact absurd h (by simp)
  | cons e rest ih =>
    intro k w h
    match e with
    | (k1, v1) =>
      rw [cleanFields_cons] at h
      by_cases h1 : k1 ∈ fieldsToRemove
      · rw [if_pos h1] at h
        obtain ⟨hb, v, hv, hc⟩ := ih k w h
        exact ⟨hb, v, List.mem_cons_of_mem _ hv, hc⟩
      · rw [if_neg h1] at h
        by_cases h2 : k1 ∈ validationKeys
        · rw [if_pos h2] at h
          obtain ⟨hb, v, hv, hc⟩ := ih k w h
          exact ⟨hb, v, List.mem_cons_of_mem _ hv, hc⟩
        · rw [if_neg h2] at h
          have hbk1 : bannedKey k1 = false := (bannedKey_false_iff k1).mpr ⟨h1, h2⟩
          by_cases h3 : k1 = "description" ∧ vs ≠ [] ∧ top = true
          · rw [if_pos h3] at h
            rcases List.mem_cons.mp h with he | he
            · have hk : k1 = k := (congrArg Prod.fst he).symm
              have hw : w = .str (descAppend v1 vs) := congrArg Prod.snd he
              subst hk
              exact ⟨hbk1, v1, List.mem_cons_self _ _, Or.inr ⟨_, hw⟩⟩
            · obtain ⟨hb, v, hv, hc⟩ := ih k w he
              exact ⟨hb, v, List.mem_cons_of_mem _ hv, hc⟩
          · rw [if_neg h3] at h
            rcases List.mem_cons.mp h with he | he
            · have hk : k1 = k := (congrArg Prod.fst he).symm
              have hw : w = cleanValue false v1 := congrArg Prod.snd he
              subst hk
              exact ⟨hbk1, v1, List.mem_cons_self _ _, Or.inl hw⟩
            · obtain ⟨hb, v, hv, hc⟩ := ih k w he
              exact ⟨hb, v, List.mem_cons_of_mem _ hv, hc⟩

/-- Membership gives a populated key. -/
theorem hasField_of_mem :
    ∀ (gs : List (String × JVal)) (k : String) (w : JVal),
      (k, w) ∈ gs → hasField gs k = true := by
  intro gs
  induction gs with
  | nil => intro k w h; exact absurd h (by simp)
  | cons e rest ih =>
    intro k w h
    match e with
    | (k1, v1) =>
      by_cases hk : k1 = k
      · subst hk
        simp [hasField, lookupField]
      · rcases List.mem_cons.mp h with he | he
        · exact absurd ((congrArg Prod.fst he).symm) hk
        · have := ih k w he
          unfold hasField at this ⊢
          simp only [lookupField, if_neg hk]
          exact this

/-- Every item of a cleaned array is the clean of an input item. -/
theorem mem_cleanItems (top : Bool) :
    ∀ (xs : List JVal) (y : JVal),
      y ∈ cleanItems top xs → ∃ x, x ∈ xs ∧ y = cleanValue top x := by
  intro xs
  induction xs with
  | nil => intro y h; rw [cleanItems] at h; exact absurd h (by simp)
  | cons x rest ih =>
    intro y h
    have hx : cleanItems top (x :: rest) = cleanValue top x :: cleanItems top rest := by
      cases x <;> rfl
    rw [hx] at h
    rcases List.mem_cons.mp h with he | he
    · exact ⟨x, List.mem_cons_self _ _, he⟩
    · obtain ⟨x2, hx2, hy⟩ := ih y he
      exact ⟨x2, List.mem_cons_of_mem _ hx2, hy⟩

/-- Well-formedness of array members. -/
theorem wfVal_of_mem_list :
    ∀ (xs : List JVal) (x : JVal), wfList xs = true → x ∈ xs → wfVal x = true := by
  intro xs
  induction xs with
  | nil => intro x _ h; exact absurd h (by simp)
  | cons y rest ih =>
    intro x hwf h
    simp only [wfList, Bool.and_eq_true] at hwf
    rcases List.mem_cons.mp h with he | he
    · rw [he]; exact hwf.1
    · exact ih x hwf.2 he

/-- `noBannedList` from per-item facts. -/
theorem noBannedList_of_entries :
    ∀ ys : List JVal, (∀ y ∈ ys, noBannedVal y = true) → noBannedList ys = true := by
  intro ys
  induction ys with
  | nil => intro _; rfl
  | cons y rest ih =>
    intro h
    simp only [noBannedList, Bool.and_eq_true]
    exact ⟨h y (List.mem_cons_self _ _), ih (fun z hz => h z (List.mem_cons_of_mem _ hz))⟩

/-- `noBannedFields` from per-entry facts. -/
theorem noBannedFields_of_entries :
    ∀ gs : List (String × JVal),
      (∀ k w, (k, w) ∈ gs →
        bannedKey k = false ∧ ¬(k = "required" ∧ w = .arr []) ∧ noBannedVal w = true) →
      noBannedFields gs = true := by
  intro gs
  induction gs with
  | nil => intro _; rfl
  | cons e rest ih =>
    intro h
    match e with
    | (k1, w1) =>
      have hh := h k1 w1 (List.mem_cons_self _ _)
      simp only [noBannedFields, Bool.and_eq_true]
      refine ⟨⟨⟨?_, ?_⟩, hh.2.2⟩, ih (fun k w hm => h k w (List.mem_cons_of_mem _ hm))⟩
      · rw [hh.1]; rfl
      · by_cases hk : k1 = "required"
        · subst hk
          cases w1 with
          | arr items =>
            cases items with
            | nil => exact absurd ⟨rfl, rfl⟩ hh.2.1
            | cons a b => simp
          | null => simp
          | bool b => simp
          | num n => simp
          | str s => simp
          | obj fs2 => simp
        · simp [hk]

end AG

namespace AG

/-- `preservesFieldsIn` from per-entry facts, each packaged as the
singleton instance of the predicate. -/
theorem preservesFieldsIn_of_entries (top : Bool) (gs : List (String × JVal)) :
    ∀ fs, (∀ k v, (k, v) ∈ fs → preservesFieldsIn top [(k, v)] gs = true) →
    preservesFieldsIn top fs gs = true := by
  intro fs
  induction fs with
  | nil => intro _; rfl
  | cons e rest ih =>
    intro h
    match e with
    | (k1, v1) =>
      have hh := h k1 v1 (List.mem_cons_self _ _)
      simp only [preservesFieldsIn] at hh ⊢
      rw [Bool.and_true] at hh
      rw [Bool.and_eq_true]
      exact ⟨hh, ih (fun k v hm => h k v (List.mem_cons_of_mem _ hm))⟩

/-- The cleaner never leaves a dropped or extracted field, nor an empty
`required` array, at any level of a well-formed schema. -/
theorem cleanValue_noBanned : ∀ (top : Bool) (v : JVal), wfVal v = true →
    noBannedVal (cleanValue top v) = true
  | _, .null, _ => rfl
  | _, .bool _, _ => rfl
  | _, .num _, _ => rfl
  | _, .str _, _ => rfl
  | top, .arr xs, h => by
    simp only [cleanValue, noBannedVal]
    apply noBannedList_of_entries
    intro y hy
    obtain ⟨x, hx, hyx⟩ := mem_cleanItems top xs y hy
    rw [hyx]
    exact cleanValue_noBanned top x (wfVal_of_mem_list xs x (by simpa [wfVal] using h) hx)
  | top, .obj fs, h => by
    simp only [cleanValue, noBannedVal]
    have hwf : wfFields fs = true := by simpa [wfVal] using h
    apply noBannedFields_of_entries
    intro k w hmem
    have hmem2 := mem_of_mem_prune _ _ hmem
    obtain ⟨hbk, v, hvmem, hcase⟩ :=
      mem_cleanFields top (collectValidations fs) fs k w hmem2
    refine ⟨hbk, ?_, ?_⟩
    · rintro ⟨hk, hw⟩
      subst hk
      subst hw
      rcases hcase with hcv | ⟨s, hs⟩
      · have hv : v = .arr [] := by
          by_contra hne
          exact cleanValue_ne_arr_nil false v hne hcv.symm
        subst hv
        have hlk : lookupField (cleanFields top (collectValidations fs) fs) "required" =
            some (.arr []) := by
          rw [lookupField_cleanFields top _ "required" (by decide) (by simp),
            lookupField_of_mem fs "required" (.arr []) hwf hvmem]
          rfl
        have hno := prune_removes_empty_required _ hlk
        have hyes := hasField_of_mem _ _ _ hmem
        rw [hno] at hyes
        exact Bool.noConfusion hyes
      · exact JVal.noConfusion hs
    · rcases hcase with hcv | ⟨s, hs⟩
      · rw [hcv]
        exact cleanValue_noBanned false v (wfVal_of_mem fs k v hwf hvmem)
      · rw [hs]; rfl
termination_by top v h => sizeOf v
decreasing_by
  · have h1 := List.sizeOf_lt_of_mem hx
    simp only [JVal.arr.sizeOf_spec]
    omega
  · have h1 := sizeOf_snd_lt_of_mem hvmem
    simp only [JVal.obj.sizeOf_spec]
    omega

end AG

namespace AG

mutual

/-- Every field the claim requires to be preserved is preserved by the
cleaner, at every level of a well-formed schema, with the top-level
`description` exempted. -/
theorem cleanValue_preserves : ∀ (top : Bool) (v : JVal), wfVal v = true →
    preservesVal top v (cleanValue top v) = true
  | _, .null, _ => rfl
  | _, .bool b, _ => by simp [cleanValue, preservesVal]
  | _, .num n, _ => by simp [cleanValue, preservesVal]
  | _, .str s, _ => by simp [cleanValue, preservesVal]
  | top, .arr xs, h => by
    simp only [cleanValue, preservesVal]
    exact cleanItems_preserves top xs (by simpa [wfVal] using h)
  | top, .obj fs, h => by
    simp only [cleanValue, preservesVal]
    have hwf : wfFields fs = true := by simpa [wfVal] using h
    apply preservesFieldsIn_of_entries
    intro k v hvmem
    simp only [preservesFieldsIn]
    rw [Bool.and_true]
    cases hb : bannedKey k with
    | true => simp
    | false =>
      rw [if_neg (by simp : ¬ false = true)]
      by_cases hk : k = "required"
      · subst hk
        by_cases hve : v = .arr []
        · subst hve
          rw [if_pos (by rfl)]
          have hlk : lookupField (cleanFields top (collectValidations fs) fs)
              "required" = some (.arr []) := by
            rw [lookupField_cleanFields top _ "required" (by decide) (by simp),
              lookupField_of_mem fs "required" (.arr []) hwf hvmem]
            rfl
          rw [prune_removes_empty_required _ hlk]
          rfl
        · rw [if_neg (by
            intro hc
            cases v with
            | arr items =>
              cases items with
              | nil => exact hve rfl
              | cons a b => simp at hc
            | null => simp at hc
            | bool b => simp at hc
            | num n => simp at hc
            | str s => simp at hc
            | obj gs2 => simp at hc)]
          rw [if_neg (by intro hc; simp at hc)]
          have hlkfs : lookupField fs "required" = some v :=
            lookupField_of_mem fs _ v hwf hvmem
          have hlk : lookupField (cleanFields top (collectValidations fs) fs)
              "required" = some (cleanValue false v) := by
            rw [lookupField_cleanFields top _ "required" (by decide) (by simp), hlkfs]
            rfl
          have hpr := prune_id_of_ne _ _ hlk (cleanValue_ne_arr_nil false v hve)
          rw [hpr, hlk]
          exact cleanValue_preserves false v (wfVal_of_mem fs _ v hwf hvmem)
      · rw [if_neg (by intro hc; simp [hk] at hc)]
        by_cases htk : (top && decide (k = "description")) = true
        · rw [if_pos htk]
        · rw [if_neg htk]
          have hlkfs : lookupField fs k = some v := lookupField_of_mem fs k v hwf hvmem
          have hside : ¬(k = "description" ∧ collectValidations fs ≠ [] ∧ top = true) := by
            intro hc
            apply htk
            rw [hc.2.2, hc.1]
            simp
          have hlk : lookupField (cleanFields top (collectValidations fs) fs) k =
              some (cleanValue false v) := by
            rw [lookupField_cleanFields top _ k hb hside, hlkfs]
            rfl
          have hlkg : lookupField
              (pruneEmptyRequired (cleanFields top (collectValidations fs) fs)) k =
              some (cleanValue false v) := by
            rw [lookupField_prune_ne _ _ hk, hlk]
          rw [hlkg]
          exact cleanValue_preserves false v (wfVal_of_mem fs k v hwf hvmem)
termination_by top v h => 2 * sizeOf v
decreasing_by
  · simp only [JVal.arr.sizeOf_spec]
    omega
  · have h1 := sizeOf_snd_lt_of_mem hvmem
    simp only [JVal.obj.sizeOf_spec]
    omega
  · have h1 := sizeOf_snd_lt_of_mem hvmem
    simp only [JVal.obj.sizeOf_spec]
    omega

/-- Pointwise preservation for cleaned arrays. -/
theorem cleanItems_preserves : ∀ (top : Bool) (xs : List JVal), wfList xs = true →
    preservesList top xs (cleanItems top xs) = true
  | _, [], _ => rfl
  | top, x :: rest, h => by
    have h2 : wfVal x = true ∧ wfList rest = true := by
      simpa [wfList, Bool.and_eq_true] using h
    have hx : cleanItems top (x :: rest) = cleanValue top x :: cleanItems top rest := by
      cases x <;> rfl
    rw [hx]
    simp only [preservesList, Bool.and_eq_true]
    exact ⟨cleanValue_preserves top x h2.1, cleanItems_preserves top rest h2.2⟩
termination_by top xs h => 2 * sizeOf xs + 1
decreasing_by
  · simp only [List.cons.sizeOf_spec]
    omega
  · simp only [List.cons.sizeOf_spec]
    omega

end

end AG

namespace AG

/-- C2 amended: for every well-formed tool parameters schema the cleaned
schema contains, at every nesting level, none of the dropped fields and
none of the extracted validation fields, no `required` array of length
zero, and every other field is preserved verbatim (recursively cleaned),
except the top-level `description` field, which may receive the surfaced
constraint suffix. -/
theorem c2_cleaner_contract (s : JVal) (hwf : wfVal s = true) :
    noBannedVal (cleanJsonSchema s) = true ∧
    preservesVal true s (cleanJsonSchema s) = true := by
  cases s with
  | obj fs => exact ⟨cleanValue_noBanned true _ hwf, cleanValue_preserves true _ hwf⟩
  | arr xs => exact ⟨cleanValue_noBanned true _ hwf, cleanValue_preserves true _ hwf⟩
  | null => exact ⟨rfl, rfl⟩
  | bool b => exact ⟨rfl, by simp [cleanJsonSchema, preservesVal]⟩
  | num n => exact ⟨rfl, by simp [cleanJsonSchema, preservesVal]⟩
  | str s2 => exact ⟨rfl, by simp [cleanJsonSchema, preservesVal]⟩

/-- C2 witness: the amended contract at a concrete schema with a nested
validation field and an empty `required` array. -/
theorem c2_cleaner_contract_witness :
    noBannedVal (cleanJsonSchema (.obj [("type", .str "object"),
      ("properties", .obj [("y", .obj [("type", .str "integer"),
        ("minimum", .num 1)])]),
      ("required", .arr [])])) = true ∧
    preservesVal true (.obj [("type", .str "object"),
      ("properties", .obj [("y", .obj [("type", .str "integer"),
        ("minimum", .num 1)])]),
      ("required", .arr [])])
      (cleanJsonSchema (.obj [("type", .str "object"),
        ("properties", .obj [("y", .obj [("type", .str "integer"),
          ("minimum", .num 1)])]),
        ("required", .arr [])])) = true := by
  exact c2_cleaner_contract _ (by decide)

end AG

namespace AG

/-- The `description` lookup through a cleaned level: the key survives
exactly when it was present, and its value is rewritten with the surfaced
suffix precisely when validations were collected at this level and the
level is the top one; otherwise it is the cleaned original value. -/
theorem lookupField_cleanFields_desc (top : Bool) (vs : List String) :
    ∀ fs : List (String × JVal),
      lookupField (cleanFields top vs fs) "description" =
        (lookupField fs "description").map (fun d =>
          if vs ≠ [] ∧ top = true then .str (descAppend d vs)
          else cleanValue false d) := by
  intro fs
  induction fs with
  | nil => simp [cleanFields, lookupField]
  | cons e rest ih =>
    match e with
    | (k1, v1) =>
      rw [cleanFields_cons]
      by_cases h1 : k1 ∈ fieldsToRemove
      · rw [if_pos h1, ih]
        have hk : k1 ≠ "description" := by
          intro he
          rw [he] at h1
          exact absurd h1 (by decide)
        simp [lookupField, hk]
      · rw [if_neg h1]
        by_cases h2 : k1 ∈ validationKeys
        · rw [if_pos h2, ih]
          have hk : k1 ≠ "description" := by
            intro he
            rw [he] at h2
            exact absurd h2 (by decide)
          simp [lookupField, hk]
        · rw [if_neg h2]
          by_cases h3 : k1 = "description" ∧ vs ≠ [] ∧ top = true
          · rw [if_pos h3]
            have hk : k1 = "description" := h3.1
            subst hk
            simp [lookupField, h3.2]
          · rw [if_neg h3]
            by_cases hk : k1 = "description"
            · subst hk
              have hcond : ¬(vs ≠ [] ∧ top = true) := fun hc => h3 ⟨rfl, hc⟩
              simp [lookupField, hcond]
            · simp [lookupField, hk, ih]

/-- C3 amended: for every schema, the cleaner surfaces constraints as a
suffix only onto a `description` field that already exists at the top
level: the output's top-level description is exactly the input's, rewritten
to carry the top-level collectValidations suffix when that list is
non-empty (and cleaned as usual otherwise), and it is absent whenever the
input had none — so constraints elided at nested levels are never surfaced.
In particular, the claimed input cleans to an output with no `description`,
while a top-level schema that already carries one receives the suffix. -/
theorem c3_description_suffix :
    (∀ fs : List (String × JVal),
      topDescription (cleanJsonSchema (.obj fs)) =
        (lookupField fs "description").map (fun d =>
          if collectValidations fs ≠ [] then
            .str (descAppend d (collectValidations fs))
          else cleanValue false d)) ∧
    cleanJsonSchema (.obj [("type", .str "object"),
      ("properties", .obj [("x", .obj [("type", .str "string"),
        ("minLength", .num 3), ("pattern", .str "^a")])]),
      ("additionalProperties", .bool false),
      ("required", .arr [.str "x"])]) =
      .obj [("type", .str "object"),
            ("properties", .obj [("x", .obj [("type", .str "string")])]),
            ("required", .arr [.str "x"])] ∧
    cleanJsonSchema (.obj [("description", .str "d"), ("minLength", .num 3),
      ("additionalProperties", .bool false)]) =
      .obj [("description", .str "d (minLength: minLength, no additional properties)")] := by
  refine ⟨?_, rfl, rfl⟩
  intro fs
  simp only [cleanJsonSchema, cleanValue, topDescription]
  rw [lookupField_prune_ne _ _ (by decide), lookupField_cleanFields_desc]
  cases hlk : lookupField fs "description" with
  | none => rfl
  | some d =>
    simp only [Option.map_some']
    by_cases hv : collectValidations fs ≠ [] <;> simp [hv]

end AG

namespace AG

/-- The positional fallback of `accountKey` is irrelevant for records with
a truthy `refresh_token` or `access_token`. -/
theorem accountKey_of_truthy (f g : String) (e : Account)
    (h : e.refresh_token ≠ "" ∨ e.access_token ≠ "") :
    accountKey f e = accountKey g e := by
  unfold accountKey
  rcases h with h | h
  · simp [h]
  · by_cases hr : e.refresh_token ≠ "" <;> simp [hr, h]

/-- `Map.get` over an append scans the left part first. -/
theorem mapGet_append (m1 m2 : List (String × Account)) (k : String) :
    mapGet (m1 ++ m2) k =
      (match mapGet m1 k with
       | some v => some v
       | none => mapGet m2 k) := by
  induction m1 with
  | nil => simp [mapGet]
  | cons e rest ih =>
    match e with
    | (k1, v1) =>
      by_cases hk : k1 = k
      · subst hk
        simp [mapGet]
      · simp [mapGet, hk, ih]

/-- `Map.set` with a fresh key appends, keeping order. -/
theorem mapSet_of_absent :
    ∀ (m : List (String × Account)) (k : String) (v : Account),
      mapGet m k = none → mapSet m k v = m ++ [(k, v)] := by
  intro m k v
  induction m with
  | nil => intro _; rfl
  | cons e rest ih =>
    intro h
    match e with
    | (k1, v1) =>
      by_cases hk : k1 = k
      · subst hk
        simp [mapGet] at h
      · simp only [mapGet, if_neg hk] at h
        simp [mapSet, hk, ih h]

/-- `Map.set` with a present key replaces the entry in place. -/
theorem mapSet_update :
    ∀ (pre rest : List (String × Account)) (k : String) (a v : Account),
      mapGet pre k = none →
      mapSet (pre ++ (k, a) :: rest) k v = pre ++ (k, v) :: rest := by
  intro pre
  induction pre with
  | nil => intro rest k a v _; simp [mapSet]
  | cons e p ih =>
    intro rest k a v h
    match e with
    | (k1, v1) =>
      by_cases hk : k1 = k
      · subst hk
        simp [mapGet] at h
      · simp only [mapGet, if_neg hk] at h
        simp [mapSet, hk, ih rest k a v h]

/-- A key held by no record misses the keyed map. -/
theorem mapGet_keyed_none :
    ∀ (l : List Account) (k : String),
      (∀ e ∈ l, accountKey "" e ≠ k) →
      mapGet (l.map (fun e => (accountKey "" e, e))) k = none := by
  intro l
  induction l with
  | nil => intro k _; rfl
  | cons a rest ih =>
    intro k h
    simp only [List.map_cons, mapGet, if_neg (h a (List.mem_cons_self _ _))]
    exact ih k (fun e he => h e (List.mem_cons_of_mem _ he))

/-- The first phase of `mergeAccounts`: indexing the existing records whose
keys are fresh for the accumulated map appends them in order, keyed by
`refresh_token` with the `access_token` fallback. -/
theorem mergeFoldExisting (pfix : String) :
    ∀ (l : List Account) (n : Nat) (m : List (String × Account)),
      (∀ e ∈ l, e.refresh_token ≠ "" ∨ e.access_token ≠ "") →
      (∀ e ∈ l, mapGet m (accountKey "" e) = none) →
      ((l.map (accountKey "")).Nodup) →
      List.foldl (fun m2 p => mapSet m2 (accountKey (pfix ++ toString p.1) p.2) p.2) m
          (l.enumFrom n)
        = m ++ l.map (fun e => (accountKey "" e, e)) := by
  intro l
  induction l with
  | nil => intro n m _ _ _; simp [List.enumFrom]
  | cons a rest ih =>
    intro n m htr habs hnd
    have hta := htr a (List.mem_cons_self _ _)
    simp only [List.enumFrom, List.foldl_cons]
    rw [accountKey_of_truthy (pfix ++ toString n) "" a hta,
      mapSet_of_absent m _ a (habs a (List.mem_cons_self _ _))]
    have habs2 : ∀ e ∈ rest,
        mapGet (m ++ [(accountKey "" a, a)]) (accountKey "" e) = none := by
      intro e he
      rw [mapGet_append, habs e (List.mem_cons_of_mem _ he)]
      have hne : accountKey "" a ≠ accountKey "" e := by
        simp only [List.map_cons, List.nodup_cons] at hnd
        intro hh
        exact hnd.1 (hh ▸ List.mem_map_of_mem _ he)
      simp [mapGet, hne]
    have hnd2 : ((rest.map (accountKey "")).Nodup) := by
      simp only [List.map_cons, List.nodup_cons] at hnd
      exact hnd.2
    rw [ih (n + 1) _ (fun e he => htr e (List.mem_cons_of_mem _ he)) habs2 hnd2]
    simp

/-- The second phase of `mergeAccounts` on records whose keys all miss the
accumulated map: each one is appended, none overlays. -/
theorem mergeFoldIncoming :
    ∀ (l : List Account) (n : Nat) (m : List (String × Account)),
      (∀ e ∈ l, e.refresh_token ≠ "" ∨ e.access_token ≠ "") →
      (∀ e ∈ l, mapGet m (accountKey "" e) = none) →
      ((l.map (accountKey "")).Nodup) →
      List.foldl (fun m2 p =>
          match mapGet m2 (accountKey ("incoming-" ++ toString p.1) p.2) with
          | some cur => mapSet m2 (accountKey ("incoming-" ++ toString p.1) p.2)
              (overlayAccount cur p.2)
          | none => mapSet m2 (accountKey ("incoming-" ++ toString p.1) p.2) p.2) m
          (l.enumFrom n)
        = m ++ l.map (fun e => (accountKey "" e, e)) := by
  intro l
  induction l with
  | nil => intro n m _ _ _; simp [List.enumFrom]
  | cons a rest ih =>
    intro n m htr habs hnd
    have hta := htr a (List.mem_cons_self _ _)
    simp only [List.enumFrom, List.foldl_cons]
    have hstep : (match mapGet m (accountKey ("incoming-" ++ toString n) a) with
        | some cur => mapSet m (accountKey ("incoming-" ++ toString n) a)
            (overlayAccount cur a)
        | none => mapSet m (accountKey ("incoming-" ++ toString n) a) a)
        = m ++ [(accountKey "" a, a)] := by
      rw [accountKey_of_truthy ("incoming-" ++ toString n) "" a hta,
        habs a (List.mem_cons_self _ _)]
      exact mapSet_of_absent m _ a (habs a (List.mem_cons_self _ _))
    rw [hstep]
    have habs2 : ∀ e ∈ rest,
        mapGet (m ++ [(accountKey "" a, a)]) (accountKey "" e) = none := by
      intro e he
      rw [mapGet_append, habs e (List.mem_cons_of_mem _ he)]
      have hne : accountKey "" a ≠ accountKey "" e := by
        simp only [List.map_cons, List.nodup_cons] at hnd
        intro hh
        exact hnd.1 (hh ▸ List.mem_map_of_mem _ he)
      simp [mapGet, hne]
    have hnd2 : ((rest.map (accountKey "")).Nodup) := by
      simp only [List.map_cons, List.nodup_cons] at hnd
      exact hnd.2
    rw [ih (n + 1) _ (fun e he => htr e (List.mem_cons_of_mem _ he)) habs2 hnd2]
    simp

end AG

namespace AG

/-- The key of an overlaid record is the key of the overlaying record. -/
theorem accountKey_overlay (f : String) (cur b : Account) :
    accountKey f (overlayAccount cur b) = accountKey f b := rfl

/-- Mapping a pointwise-identity function is the identity. -/
theorem map_id_of_eq {α : Type} (f : α → α) :
    ∀ l : List α, (∀ e ∈ l, f e = e) → l.map f = l := by
  intro l
  induction l with
  | nil => intro _; rfl
  | cons a rest ih =>
    intro h
    rw [List.map_cons, h a (List.mem_cons_self _ _),
      ih (fun e he => h e (List.mem_cons_of_mem _ he))]

/-- A record present in the keyed map is found by its key. -/
theorem mapGet_keyed_mem :
    ∀ (l : List Account) (e : Account), e ∈ l →
      mapGet (l.map (fun x => (accountKey "" x, x))) (accountKey "" e) ≠ none := by
  intro l
  induction l with
  | nil => intro e he; exact absurd he (List.not_mem_nil e)
  | cons a rest ih =>
    intro e he
    by_cases hk : accountKey "" a = accountKey "" e
    · simp [mapGet, hk]
    · rcases List.mem_cons.mp he with rfl | he2
      · exact absurd rfl hk
      · simp only [List.map_cons, mapGet, if_neg hk]
        exact ih e he2

/-- A hit in the keyed map means some record has the key. -/
theorem any_of_mapGet_keyed_some :
    ∀ (l : List Account) (k : String) (cur : Account),
      mapGet (l.map (fun x => (accountKey "" x, x))) k = some cur →
      l.any (fun e => accountKey "" e == k) = true := by
  intro l
  induction l with
  | nil => intro k cur hm; simp [mapGet] at hm
  | cons a rest ih =>
    intro k cur hm
    by_cases hk : accountKey "" a = k
    · simp [List.any_cons, hk]
    · simp only [List.map_cons, mapGet, if_neg hk] at hm
      simp [List.any_cons, ih k cur hm]

/-- One step of the incoming fold of `mergeAccounts`, on a keyed map with
pairwise-distinct keys, realises the one-record specification policy
`specApplyOne`: overlay in place on a key hit, append on a miss. -/
theorem step_keyed :
    ∀ (ms : List Account) (b : Account),
      ((ms.map (accountKey "")).Nodup) →
      (match mapGet (ms.map (fun e => (accountKey "" e, e))) (accountKey "" b) with
       | some cur => mapSet (ms.map (fun e => (accountKey "" e, e)))
           (accountKey "" b) (overlayAccount cur b)
       | none => mapSet (ms.map (fun e => (accountKey "" e, e)))
           (accountKey "" b) b)
      = (specApplyOne ms b).map (fun e => (accountKey "" e, e)) := by
  intro ms b
  induction ms with
  | nil => intro _; rfl
  | cons a rest ih =>
    intro hnd
    have hndr : ((rest.map (accountKey "")).Nodup) := by
      simp only [List.map_cons, List.nodup_cons] at hnd
      exact hnd.2
    by_cases h : accountKey "" a = accountKey "" b
    · have hka : accountKey "" a ∉ rest.map (accountKey "") := by
        simp only [List.map_cons, List.nodup_cons] at hnd
        exact hnd.1
      have hget : mapGet ((a :: rest).map (fun e => (accountKey "" e, e)))
          (accountKey "" b) = some a := by
        simp [mapGet, h]
      have hset : mapSet ((a :: rest).map (fun e => (accountKey "" e, e)))
          (accountKey "" b) (overlayAccount a b)
          = (accountKey "" b, overlayAccount a b) ::
              rest.map (fun e => (accountKey "" e, e)) := by
        simp [mapSet, h]
      have hspec : specApplyOne (a :: rest) b = overlayAccount a b :: rest := by
        unfold specApplyOne
        have hc : (a :: rest).any
            (fun e => accountKey "" e == accountKey "" b) = true := by
          simp [List.any_cons, h]
        rw [if_pos hc]
        simp only [List.map_cons, if_pos h]
        rw [map_id_of_eq _ rest]
        intro e he
        rw [if_neg]
        intro hh
        exact hka (by rw [h]; exact hh ▸ List.mem_map_of_mem (accountKey "") he)
      simp only [hget]
      rw [hset, hspec]
      simp only [List.map_cons, accountKey_overlay]
    · have hget2 : mapGet ((a :: rest).map (fun e => (accountKey "" e, e)))
          (accountKey "" b)
          = mapGet (rest.map (fun e => (accountKey "" e, e))) (accountKey "" b) := by
        simp [mapGet, h]
      cases hm : mapGet (rest.map (fun e => (accountKey "" e, e)))
          (accountKey "" b) with
      | none =>
        have ihr := ih hndr
        simp only [hm] at ihr
        simp only [hget2, hm]
        have hanyr : rest.any
            (fun e => accountKey "" e == accountKey "" b) = false := by
          by_contra hc
          rw [Bool.not_eq_false, List.any_eq_true] at hc
          obtain ⟨e, he, hk⟩ := hc
          rw [beq_iff_eq] at hk
          exact mapGet_keyed_mem rest e he (by rw [hk]; exact hm)
        have hspec2 : specApplyOne (a :: rest) b = a :: (rest ++ [b]) := by
          unfold specApplyOne
          have hc : (a :: rest).any
              (fun e => accountKey "" e == accountKey "" b) = false := by
            simp [List.any_cons, hanyr, h]
          rw [if_neg (by simp [hc])]
          rfl
        have hspecr : specApplyOne rest b = rest ++ [b] := by
          unfold specApplyOne
          rw [if_neg (by simp [hanyr])]
        rw [hspec2]
        simp only [List.map_cons, mapSet, if_neg h]
        rw [ihr, hspecr]
      | some cur =>
        have ihr := ih hndr
        simp only [hm] at ihr
        simp only [hget2, hm]
        have hanyr := any_of_mapGet_keyed_some rest (accountKey "" b) cur hm
        have hspec2 : specApplyOne (a :: rest) b = a :: specApplyOne rest b := by
          unfold specApplyOne
          have hc : (a :: rest).any
              (fun e => accountKey "" e == accountKey "" b) = true := by
            simp [List.any_cons, hanyr]
          rw [if_pos hc, if_pos hanyr]
          simp only [List.map_cons]
          rw [if_neg h]
        rw [hspec2]
        simp only [List.map_cons, mapSet, if_neg h]
        rw [ihr]

/-- `specApplyOne` keeps every record's key truthy. -/
theorem truthy_specApplyOne (ms : List Account) (b : Account)
    (htrM : ∀ e ∈ ms, e.refresh_token ≠ "" ∨ e.access_token ≠ "")
    (htb : b.refresh_token ≠ "" ∨ b.access_token ≠ "") :
    ∀ x ∈ specApplyOne ms b, x.refresh_token ≠ "" ∨ x.access_token ≠ "" := by
  intro x hx
  unfold specApplyOne at hx
  by_cases hany : ms.any (fun e => accountKey "" e == accountKey "" b) = true
  · rw [if_pos hany, List.mem_map] at hx
    obtain ⟨e, he, rfl⟩ := hx
    by_cases hk : accountKey "" e = accountKey "" b
    · rw [if_pos hk]
      exact htb
    · rw [if_neg hk]
      exact htrM e he
  · rw [if_neg hany, List.mem_append] at hx
    rcases hx with hx | hx
    · exact htrM x hx
    · rw [List.mem_singleton] at hx
      subst hx
      exact htb

/-- `specApplyOne` keeps the keys pairwise distinct. -/
theorem nodupKeys_specApplyOne (ms : List Account) (b : Account)
    (hnd : ((ms.map (accountKey "")).Nodup)) :
    (((specApplyOne ms b).map (accountKey "")).Nodup) := by
  unfold specApplyOne
  by_cases hany : ms.any (fun e => accountKey "" e == accountKey "" b) = true
  · rw [if_pos hany, List.map_map]
    have hmap : ms.map ((accountKey "") ∘ fun e =>
        if accountKey "" e = accountKey "" b then overlayAccount e b else e)
        = ms.map (accountKey "") := by
      apply List.map_congr_left
      intro e he
      simp only [Function.comp]
      by_cases hk : accountKey "" e = accountKey "" b
      · rw [if_pos hk, accountKey_overlay]
        exact hk.symm
      · rw [if_neg hk]
    rw [hmap]
    exact hnd
  · rw [if_neg hany]
    have hnotin : accountKey "" b ∉ ms.map (accountKey "") := by
      intro hmem
      apply hany
      rw [List.any_eq_true]
      rw [List.mem_map] at hmem
      obtain ⟨e, he, hk⟩ := hmem
      exact ⟨e, he, by simp [hk]⟩
    rw [List.map_append, List.nodup_append]
    refine ⟨hnd, List.nodup_singleton _, ?_⟩
    intro x hx hx2
    rw [List.map_singleton, List.mem_singleton] at hx2
    exact hnotin (hx2 ▸ hx)

/-- The incoming fold of `mergeAccounts` over a keyed map with truthy,
pairwise-distinct keys realises the specification merge policy. -/
theorem phase2_spec :
    ∀ (inc : List Account) (n : Nat) (ms : List Account),
      (∀ e ∈ inc, e.refresh_token ≠ "" ∨ e.access_token ≠ "") →
      (∀ e ∈ ms, e.refresh_token ≠ "" ∨ e.access_token ≠ "") →
      ((ms.map (accountKey "")).Nodup) →
      List.foldl (fun m2 p =>
          match mapGet m2 (accountKey ("incoming-" ++ toString p.1) p.2) with
          | some cur => mapSet m2 (accountKey ("incoming-" ++ toString p.1) p.2)
              (overlayAccount cur p.2)
          | none => mapSet m2 (accountKey ("incoming-" ++ toString p.1) p.2) p.2)
          (ms.map (fun e => (accountKey "" e, e))) (inc.enumFrom n)
        = (List.foldl specApplyOne ms inc).map (fun e => (accountKey "" e, e)) := by
  intro inc
  induction inc with
  | nil => intro n ms _ _ _; simp [List.enumFrom]
  | cons b rest ih =>
    intro n ms htrI htrM hnd
    have htb := htrI b (List.mem_cons_self _ _)
    simp only [List.enumFrom, List.foldl_cons]
    have hstep : (match mapGet (ms.map (fun e => (accountKey "" e, e)))
          (accountKey ("incoming-" ++ toString n) b) with
        | some cur => mapSet (ms.map (fun e => (accountKey "" e, e)))
            (accountKey ("incoming-" ++ toString n) b) (overlayAccount cur b)
        | none => mapSet (ms.map (fun e => (accountKey "" e, e)))
            (accountKey ("incoming-" ++ toString n) b) b)
        = (specApplyOne ms b).map (fun e => (accountKey "" e, e)) := by
      rw [accountKey_of_truthy ("incoming-" ++ toString n) "" b htb]
      exact step_keyed ms b hnd
    rw [hstep]
    rw [ih (n + 1) (specApplyOne ms b)
      (fun e he => htrI e (List.mem_cons_of_mem _ he))
      (truthy_specApplyOne ms b htrM htb)
      (nodupKeys_specApplyOne ms b hnd)]

end AG

namespace AG

/-- C8: with `replace_existing=false`, `mergeAccounts` indexes the existing
records by `refresh_token`, falling back to `access_token`; every incoming
record shallow-overlays the matching existing entry in place and is
appended when its key is new — proved as equality with the
specification-side policy `specMerge` for every pair of stores whose
records have truthy keys and whose existing keys are pairwise distinct.
Records flagged `disabled` are dropped before the merge when
`filter_disabled=true`; and the cited scenario (two valid records and one
disabled incoming, one existing record, distinct keys) returns
imported 2, skipped 1, total 3 and persists the three-record union. -/
theorem c8_import_merge :
    (∀ existing incoming : List Account,
      (∀ e ∈ existing ++ incoming, e.refresh_token ≠ "" ∨ e.access_token ≠ "") →
      ((existing.map (accountKey "")).Nodup) →
      mergeAccounts existing incoming false = specMerge existing incoming) ∧
    (∀ (now : Int) (raw : RawAccount),
      raw.disabled = some true → normalizeTomlAccount true now raw = none) ∧
    importTomlAccounts
        [{ access_token := "ae", refresh_token := "re", expires_in := 3600,
           timestamp := 7, enable := true }]
        [{ access_token := some "a1", refresh_token := some "r1" },
         { access_token := some "a2", refresh_token := some "r2" },
         { access_token := some "a3", refresh_token := some "r3",
           disabled := some true }]
        false true 42 =
      .ok { imported := 2, skipped := 1, total := 3,
            merged :=
              [{ access_token := "ae", refresh_token := "re", expires_in := 3600,
                 timestamp := 7, enable := true },
               { access_token := "a1", refresh_token := "r1", expires_in := 3600,
                 timestamp := 42, enable := true },
               { access_token := "a2", refresh_token := "r2", expires_in := 3600,
                 timestamp := 42, enable := true }] } := by
  refine ⟨?_, ?_, by decide⟩
  · intro existing incoming htr hnd
    have htrE : ∀ e ∈ existing, e.refresh_token ≠ "" ∨ e.access_token ≠ "" :=
      fun e he => htr e (List.mem_append_left _ he)
    have htrI : ∀ e ∈ incoming, e.refresh_token ≠ "" ∨ e.access_token ≠ "" :=
      fun e he => htr e (List.mem_append_right _ he)
    simp only [mergeAccounts, Bool.false_eq_true, if_false]
    rw [show existing.enum = existing.enumFrom 0 from rfl,
      show incoming.enum = incoming.enumFrom 0 from rfl,
      mergeFoldExisting "existing-" existing 0 [] htrE (fun e he => rfl) hnd,
      List.nil_append,
      phase2_spec incoming 0 existing htrI htrE hnd]
    simp only [specMerge, List.map_map]
    exact map_id_of_eq _ _ (fun e he => rfl)
  · intro now raw h
    simp [normalizeTomlAccount, h]

/-- Witness for the merge-policy part of C8: an incoming record whose key
falls back to `access_token` (empty `refresh_token`) overlays the matching
existing record in place, keeping the existing `projectId`. -/
theorem c8_import_merge_witness :
    mergeAccounts
        [{ access_token := "ax", refresh_token := "", expires_in := 1,
           timestamp := 0, enable := true, projectId := some "p" }]
        [{ access_token := "ax", refresh_token := "", expires_in := 2,
           timestamp := 5, enable := false, email := some "e" }] false =
      [{ access_token := "ax", refresh_token := "", expires_in := 2,
         timestamp := 5, enable := false, projectId := some "p",
         email := some "e" }] := by
  rw [c8_import_merge.1 _ _ (by decide) (by decide)]
  decide

end AG
